import Mathlib

/-!
# Verification of the VG-III SRTF + MFT simulation engine

Shallow embedding of `simulador_motor.py` (the engine driven by the GUI):
the five-state process lifecycle, fixed memory partitions with Best-Fit
placement, swap-based replacement, SRTF dispatch with preemption, and the
snapshot/final-report builders.  Python `int` fields are modelled as `Int`,
`None`-able fields as `Option`, the mutable queues as lists of process
records that move between the queues (the Python object graph aliases
processes from the queues into `Particion.proceso_asignado` and
`procesos_reporte`; in this value embedding the queue copy is the
authoritative one, and a partition's stored occupant is only ever read for
its immutable fields `tamano` / `id_proceso`, matching the source's reads).
-/

namespace VG3

/-! ## A small stable insertion sort

`sorted(..., key=...)` in Python is a stable sort by a (lexicographic tuple)
key; we model it with an insertion sort parameterised by a boolean `le` and
prove the permutation / sortedness facts we need.  (Stable: a new element is
inserted after existing elements it ties with, because ties satisfy `le`.)
-/

def insertarOrdenado (le : α → α → Bool) (a : α) : List α → List α
  | [] => [a]
  | b :: l => if le a b then a :: b :: l else b :: insertarOrdenado le a l

def ordenar (le : α → α → Bool) : List α → List α
  | [] => []
  | b :: l => insertarOrdenado le b (ordenar le l)

/-! ## Data model (`Proceso`, `Particion` of `simulador_motor.py`) -/

/-- The five logical states of `Proceso.estado`
("NUEVO", "L/S", "LISTO", "EJECUCION", "TERMINADO"). -/
inductive EstadoProc where
  | NUEVO | LS | LISTO | EJECUCION | TERMINADO
  deriving DecidableEq, Repr

/-- `Proceso`: fixed identity/demand fields plus the dynamic fields the engine
mutates.  `-1` is the "unset" sentinel for the three time stamps, as in the
source; `id_particion` is `None`/`none` when the process holds no partition. -/
structure Proceso where
  id_proceso : Int
  tamano : Int
  t_arribo : Int
  t_irrupcion : Int
  estado : EstadoProc
  t_restante : Int
  id_particion : Option Int
  t_fin : Int
  t_primera_ejecucion : Int
  t_llegada_listo : Int
  deriving DecidableEq, Repr

/-- `Proceso.__init__`: fixed fields from the row, dynamic fields reset. -/
def mkProceso (id tam ta ti : Int) : Proceso :=
  { id_proceso := id, tamano := tam, t_arribo := ta, t_irrupcion := ti,
    estado := .NUEVO, t_restante := ti, id_particion := none,
    t_fin := -1, t_primera_ejecucion := -1, t_llegada_listo := -1 }

/-- `Particion`: a fixed MFT partition; `proceso_asignado` holds a snapshot of
the occupant (the source stores a reference; only the occupant's immutable
fields are ever read through the partition). -/
structure Particion where
  id_particion : Int
  tamano : Int
  es_so : Bool
  base : Int
  proceso_asignado : Option Proceso
  deriving DecidableEq, Repr

/-- `Particion.esta_libre`. -/
def Particion.estaLibre (p : Particion) : Bool :=
  p.proceso_asignado.isNone && !p.es_so

/-- `Particion.fragmentacion_interna`. -/
def Particion.fragmentacionInterna (p : Particion) : Int :=
  match p.proceso_asignado with
  | some pr => p.tamano - pr.tamano
  | none => 0

/-- The fixed partition configuration built in `Simulador.__init__`:
`P0` = OS (100 KB, reserved), then 250/150/50 KB user partitions. -/
def configParticiones : List Particion :=
  [ ⟨0, 100, true, 0, none⟩,
    ⟨1, 250, false, 100, none⟩,
    ⟨2, 150, false, 350, none⟩,
    ⟨3, 50, false, 500, none⟩ ]

/-- `Simulador._cabe_en_alguna_particion`: fits some non-reserved partition. -/
def cabeEnAlguna (parts : List Particion) (pr : Proceso) : Bool :=
  parts.any (fun p => !p.es_so && decide (pr.tamano ≤ p.tamano))

/-- Accumulator loop of `Simulador._encontrar_mejor_particion`: `mejor` is the
best candidate so far (`None` initially, which the source encodes with
`menor_fi = inf`); a fitting free partition replaces it when it has strictly
smaller internal fragmentation, or equal fragmentation and smaller size. -/
def empAux (pr : Proceso) (mejor : Option Particion) : List Particion → Option Particion
  | [] => mejor
  | part :: rest =>
    if part.estaLibre && decide (pr.tamano ≤ part.tamano) then
      match mejor with
      | none => empAux pr (some part) rest
      | some m =>
        if part.tamano - pr.tamano < m.tamano - pr.tamano ∨
            (part.tamano - pr.tamano = m.tamano - pr.tamano ∧ part.tamano < m.tamano) then
          empAux pr (some part) rest
        else
          empAux pr (some m) rest
    else empAux pr mejor rest

/-- `Simulador._encontrar_mejor_particion` (Best-Fit over a partition list). -/
def encontrarMejorParticion (pr : Proceso) (parts : List Particion) : Option Particion :=
  empAux pr none parts

/-- `Q` is a free partition that can hold `pr`. -/
def LibreYCabe (pr : Proceso) (Q : Particion) : Prop :=
  Q.estaLibre = true ∧ pr.tamano ≤ Q.tamano

/-- Look up a partition by id (the source indexes `self.particiones[i]` and
partition ids coincide with list positions in the fixed configuration). -/
def getParticion (parts : List Particion) (i : Int) : Option Particion :=
  parts.find? (fun p => p.id_particion == i)

/-- Replace the partition with the given id (models in-place mutation of the
object found by `getParticion`; partition ids are unique in the fixed
configuration). -/
def setParticion (parts : List Particion) (p : Particion) : List Particion :=
  parts.map (fun q => if q.id_particion == p.id_particion then p else q)

/-- `Particion.liberar_particion` on the partition referred to by an optional
process field (`self.particiones[x.id_particion].liberar_particion()`); a
`none` id leaves the list unchanged (the source would raise, but this path is
unreachable: it is only invoked for processes that hold a partition). -/
def liberarPorOpt (parts : List Particion) : Option Int → List Particion
  | none => parts
  | some i => parts.map (fun q => if q.id_particion == i then { q with proceso_asignado := none } else q)

/-! ## Simulator state and tick events -/

/-- Structured rendering of the strings pushed into `eventos_del_tick`.
`admision` and `swapEv` record the process values *before* their dynamic
fields are updated by the move, plus the id of the partition involved. -/
inductive Evento where
  | termina (p : Proceso) (partId : Int)
  | arriban (ids : List Int)
  | arribanSistema (ids : List Int)
  | gdmLleno (ids : List Int)
  | noCabe (p : Proceso)
  | admision (candidato : Proceso) (partId : Int)
  | swapEv (victima candidato : Proceso) (partId : Int)
  | inicia (p : Proceso)
  | desalojo (sal ent : Proceso)
  deriving DecidableEq, Repr

/-- The engine state of `Simulador`: the clock, the four lifecycle queues,
the CPU, the terminated archive, the fixed partitions and the tick's event
list.  `procesos_reporte` is not stored: it aliases the very objects that
circulate through the queues, so its current values are recovered from the
queues (see `procesosReporte`). -/
structure Sim where
  reloj : Int
  nuevos : List Proceso
  ls : List Proceso
  listos : List Proceso
  running : Option Proceso
  terminados : List Proceso
  particiones : List Particion
  eventos : List Evento
  deriving DecidableEq, Repr

/-- Processes "inside the system": `len(cola_listos) + len(cola_listos_suspendidos)
+ (1 if proceso_en_ejecucion else 0)` — the GDM count of the arrival phase. -/
def countSys (s : Sim) : Nat :=
  s.listos.length + s.ls.length + (if s.running.isSome then 1 else 0)

/-- Memory-resident count: `len(cola_listos) + (1 if proceso_en_ejecucion else 0)`. -/
def memCount (s : Sim) : Nat :=
  s.listos.length + (if s.running.isSome then 1 else 0)

/-- `[pp for pp in self.particiones if pp.esta_libre]`. -/
def libres (s : Sim) : List Particion :=
  s.particiones.filter Particion.estaLibre

/-- Every process currently in the engine, in queue order: nuevos, L/S,
listos, the running process, terminados.  This is the same multiset as the
`procesos_reporte` cohort (conservation), with up-to-date field values. -/
def allProcs (s : Sim) : List Proceso :=
  s.nuevos ++ s.ls ++ s.listos ++ s.running.toList ++ s.terminados

/-- Immutable identity of a process (id, size, arrival, burst). -/
def ident (p : Proceso) : Int × Int × Int × Int :=
  (p.id_proceso, p.tamano, p.t_arribo, p.t_irrupcion)

/-! ### Sort keys (Python `sorted` with tuple keys) -/

/-- Key `(x.t_arribo, x.id_proceso)` used by `_preparar_colas`. -/
def leArr (a b : Proceso) : Bool :=
  decide (a.t_arribo < b.t_arribo ∨ (a.t_arribo = b.t_arribo ∧ a.id_proceso ≤ b.id_proceso))

/-- Key `(p.t_restante, p.id_proceso)` used to order L/S in `_intentar_admision`. -/
def leLS (a b : Proceso) : Bool :=
  decide (a.t_restante < b.t_restante ∨ (a.t_restante = b.t_restante ∧ a.id_proceso ≤ b.id_proceso))

/-- Key `(p.t_restante, p.t_llegada_listo, p.id_proceso)` used on the ready
queue by `_encontrar_proceso_srtf` and the preemption re-sort. -/
def leListo (a b : Proceso) : Bool :=
  decide (a.t_restante < b.t_restante ∨
    (a.t_restante = b.t_restante ∧
      (a.t_llegada_listo < b.t_llegada_listo ∨
        (a.t_llegada_listo = b.t_llegada_listo ∧ a.id_proceso ≤ b.id_proceso))))

/-! ### Phase 1: CPU service (`tick` step 1) -/

/-- Decrement the running process; on reaching 0 it terminates: state
`TERMINADO`, `t_fin = reloj + 1`, archived, CPU cleared, partition freed.
(The source appends the object to `procesos_terminados` and then
`liberar_particion` nulls its `id_particion` through the alias; the archived
value therefore carries `id_particion = none`.) -/
def cpuPhase (s : Sim) : Sim :=
  match s.running with
  | none => s
  | some cur0 =>
    let cur := { cur0 with t_restante := cur0.t_restante - 1 }
    if cur.t_restante = 0 then
      let fin := { cur with estado := .TERMINADO, t_fin := s.reloj + 1, id_particion := none }
      { s with running := none,
               terminados := s.terminados ++ [fin],
               particiones := liberarPorOpt s.particiones cur.id_particion,
               eventos := s.eventos ++ [.termina fin (cur.id_particion.getD (-1))] }
    else
      { s with running := some cur }

/-! ### Phase 2: arrivals into the system (`tick` step 2, GDM = 5) -/

/-- First arrival loop: pop from `procesos_nuevos` while the head arrives
exactly now (`t_arribo == reloj`) and the system GDM is below 5.  Returns
(remaining queue, new GDM, popped processes in pop order). -/
def tomaIguales (reloj : Int) : List Proceso → Nat → List Proceso × Nat × List Proceso
  | [], g => ([], g, [])
  | p :: rest, g =>
    if p.t_arribo = reloj ∧ g < 5 then
      let r := tomaIguales reloj rest (g + 1)
      (r.1, r.2.1, p :: r.2.2)
    else (p :: rest, g, [])

/-- Second arrival loop: same, but for late processes (`t_arribo < reloj`). -/
def tomaMenores (reloj : Int) : List Proceso → Nat → List Proceso × Nat × List Proceso
  | [], g => ([], g, [])
  | p :: rest, g =>
    if p.t_arribo < reloj ∧ g < 5 then
      let r := tomaMenores reloj rest (g + 1)
      (r.1, r.2.1, p :: r.2.2)
    else (p :: rest, g, [])

/-- `tick` step 2: move due arrivals from NUEVO to L/S subject to GDM 5,
reporting which exactly-due processes were rejected by a full GDM. -/
def llegadas (s : Sim) : Sim :=
  let gdm := countSys s
  let recien := (s.nuevos.filter (fun p => p.t_arribo == s.reloj)).map (·.id_proceso)
  let r1 := tomaIguales s.reloj s.nuevos gdm
  let a1 := r1.2.2
  let rechazados := recien.filter (fun i => !(a1.any (fun p => p.id_proceso == i)))
  let r2 := tomaMenores s.reloj r1.1 r1.2.1
  let adm := a1 ++ r2.2.2
  let evs := (if a1.isEmpty then [] else [Evento.arribanSistema (a1.map (·.id_proceso))]) ++
             (if rechazados.isEmpty then [] else [Evento.gdmLleno rechazados])
  { s with nuevos := r2.1,
           ls := s.ls ++ adm.map (fun p => { p with estado := .LS }),
           eventos := s.eventos ++ evs }

/-! ### Phase 3: admission and swap (`_intentar_admision`, memory GDM = 3) -/

/-- Python's `max(victimas_validas, key=lambda p: (p.t_restante, p.id_proceso))`:
fold keeping the current maximum, replaced only on a strictly greater key, so
the first maximal element wins (ids are unique on validated input anyway). -/
def maxVictima (v0 : Proceso) (l : List Proceso) : Proceso :=
  l.foldl (fun best x =>
    if best.t_restante < x.t_restante ∨
        (best.t_restante = x.t_restante ∧ best.id_proceso < x.id_proceso) then x else best) v0

/-- `Particion.asignar_proceso`: sets the occupant and the process's
`id_particion` only when the partition is free and the process fits;
otherwise both are left unchanged (the source returns `False`, which every
caller ignores). -/
def asignarProceso (part : Particion) (pr : Proceso) : Particion × Proceso :=
  if part.estaLibre && decide (pr.tamano ≤ part.tamano) then
    let pr2 := { pr with id_particion := some part.id_particion }
    ({ part with proceso_asignado := some pr2 }, pr2)
  else (part, pr)

/-- The swap-victim priority: `(t_restante, id_proceso)` lexicographic order —
`a` is no better a victim than `b`. -/
def LexVict (a b : Proceso) : Prop :=
  a.t_restante < b.t_restante ∨ (a.t_restante = b.t_restante ∧ a.id_proceso ≤ b.id_proceso)

/-- Body of the `for candidato in list(self.cola_listos_suspendidos)` loop for
one candidate, evaluated against the unmodified state `s` (the source mutates
nothing before it `break`s).  `none` means this candidate produced no change.

* normal admission — memory GDM < 3 and a free partition exists: place the
  candidate into the Best-Fit partition, move it L/S → LISTO with
  `t_llegada_listo = reloj`;
* swap — memory GDM = 3: victims are the memory-resident processes whose
  partition size fits the candidate; the max-`(t_restante, id)` victim is
  evicted to L/S iff `candidato.t_restante < victima.t_restante` (strict),
  and the candidate takes its freed partition. -/
def intentarCandidato (s : Sim) (candidato : Proceso) : Option Sim :=
  let pem := memCount s
  let lib := libres s
  if pem < 3 ∧ lib ≠ [] then
    match encontrarMejorParticion candidato lib with
    | none => none
    | some mejor =>
      let asg := asignarProceso mejor candidato
      let cand3 := { asg.2 with estado := .LISTO, t_llegada_listo := s.reloj }
      some { s with ls := s.ls.erase candidato,
                    particiones := setParticion s.particiones asg.1,
                    listos := s.listos ++ [cand3],
                    eventos := s.eventos ++ [.admision candidato mejor.id_particion] }
  else if pem = 3 then
    let posibles := s.listos ++ s.running.toList
    let validas := posibles.filter (fun v =>
      match getParticion s.particiones (v.id_particion.getD (-1)) with
      | some part => decide (candidato.tamano ≤ part.tamano)
      | none => false)
    match validas with
    | [] => none
    | v0 :: vrest =>
      let victima := maxVictima v0 vrest
      if candidato.t_restante < victima.t_restante then
        match getParticion s.particiones (victima.id_particion.getD (-1)) with
        | none => none
        | some partV =>
          let victima2 := { victima with estado := .LS, id_particion := none }
          let partV2 := { partV with proceso_asignado := none }
          let asg := asignarProceso partV2 candidato
          let cand3 := { asg.2 with estado := .LISTO, t_llegada_listo := s.reloj }
          let listos1 := if s.running == some victima then s.listos
                         else s.listos.erase victima
          let running1 := if s.running == some victima then none else s.running
          some { s with running := running1,
                        listos := listos1 ++ [cand3],
                        ls := (s.ls ++ [victima2]).erase candidato,
                        particiones := setParticion s.particiones asg.1,
                        eventos := s.eventos ++ [.swapEv victima candidato partV.id_particion] }
      else none
  else none

/-- One pass of the candidate loop over the (already sorted) L/S queue: the
first candidate that yields a change wins (`break`). -/
def buscarCambio (s : Sim) : Option Sim :=
  s.ls.findSome? (intentarCandidato s)

/-- Re-sort L/S by `(t_restante, id_proceso)` (top of the `while True` body). -/
def sortLS (s : Sim) : Sim :=
  { s with ls := ordenar leLS s.ls }

/-- Fuel-indexed fixed-point loop of `_intentar_admision`: sort L/S, look for
one admission or swap, repeat until a pass changes nothing.  Every pass
either removes an L/S process (admission) or strictly decreases the summed
remaining time in memory (swap), so `fuelAdm` below always dominates the
number of passes and the fuel-indexed loop agrees with the source's
unbounded loop. -/
def intentarAdmision : Nat → Sim → Sim
  | 0, s => s
  | fuel + 1, s =>
    let s1 := sortLS s
    match buscarCambio s1 with
    | none => s1
    | some s2 => intentarAdmision fuel s2

/-- A generous upper bound on the number of admission/swap passes. -/
def fuelAdm (s : Sim) : Nat :=
  let sr := ((s.ls ++ s.listos ++ s.running.toList).map (fun p => p.t_restante.natAbs)).sum
  (s.ls.length + 1) * (sr + 1) + 1

/-! ### Phase 4: SRTF dispatch / preemption (`_ejecutar_planificador`) -/

/-- `_ejecutar_planificador`: `_encontrar_proceso_srtf` sorts the ready queue
by `(t_restante, t_llegada_listo, id)` and peeks the head; an idle CPU
dispatches it, a busy CPU is preempted iff the head has strictly smaller
`t_restante`, or equal `t_restante` and strictly earlier `t_llegada_listo`.
On preemption the displaced process rejoins the ready queue with
`t_llegada_listo = reloj` and the re-sorted head is dispatched. -/
def ejecutarPlanificador (s : Sim) : Sim :=
  match s.listos with
  | [] => s
  | _ :: _ =>
    let q := ordenar leListo s.listos
    match s.running with
    | none =>
      match q with
      | [] => { s with listos := [] }
      | c :: rest =>
        let c2 := { c with estado := .EJECUCION,
                           t_primera_ejecucion :=
                             if c.t_primera_ejecucion = -1 then s.reloj else c.t_primera_ejecucion }
        { s with listos := rest, running := some c2,
                 eventos := s.eventos ++ [.inicia c2] }
    | some run =>
      match q with
      | [] => { s with listos := [] }
      | c :: _ =>
        if c.t_restante < run.t_restante ∨
            (c.t_restante = run.t_restante ∧ c.t_llegada_listo < run.t_llegada_listo) then
          let sal := { run with estado := .LISTO, t_llegada_listo := s.reloj }
          match ordenar leListo (q ++ [sal]) with
          | [] => { s with listos := [], running := none }
          | ent :: rest =>
            let ent2 := { ent with estado := .EJECUCION,
                                   t_primera_ejecucion :=
                                     if ent.t_primera_ejecucion = -1 then s.reloj
                                     else ent.t_primera_ejecucion }
            { s with listos := rest, running := some ent2,
                     eventos := s.eventos ++ [.desalojo sal ent2] }
        else { s with listos := q }

/-! ### Construction, tick driver and stepping -/

/-- `_preparar_colas` field reset for a selected process. -/
def resetProc (p : Proceso) : Proceso :=
  { p with estado := .NUEVO, t_restante := p.t_irrupcion, id_particion := none,
           t_fin := -1, t_primera_ejecucion := -1, t_llegada_listo := -1 }

/-- `_preparar_colas`: sort all supplied definitions by `(t_arribo, id)`,
keep the first 10, reset their dynamic fields.  This list is both the NUEVO
queue and the `procesos_reporte` cohort. -/
def cohortOf (procs : List Proceso) : List Proceso :=
  ((ordenar leArr procs).take 10).map resetProc

/-- `_guardar_estado_inicial`: at `t = 0`, pop every leading NUEVO process
with `t_arribo == 0` into L/S (with no GDM check), flagging the ones that can
never fit a user partition; then run admission and the scheduler once. -/
def guardarEstadoInicial (s : Sim) : Sim :=
  let arribados := s.nuevos.takeWhile (fun p => p.t_arribo == 0)
  let resto := s.nuevos.dropWhile (fun p => p.t_arribo == 0)
  let evArr := if arribados.isEmpty then [] else [Evento.arriban (arribados.map (·.id_proceso))]
  let evsNoCabe := (arribados.filter (fun p => !cabeEnAlguna s.particiones p)).map Evento.noCabe
  let s1 := { s with nuevos := resto,
                     ls := s.ls ++ arribados.map (fun p => { p with estado := .LS }),
                     eventos := s.eventos ++ evArr ++ evsNoCabe }
  let s2 := intentarAdmision (fuelAdm s1) s1
  ejecutarPlanificador s2

/-- `Simulador.__init__`: select the cohort, build the fixed partitions and
run the `t = 0` start-up logic. -/
def initState (procs : List Proceso) : Sim :=
  guardarEstadoInicial
    { reloj := 0, nuevos := cohortOf procs, ls := [], listos := [], running := none,
      terminados := [], particiones := configParticiones, eventos := [] }

/-- `Simulador.tick` body: clear the event list, then CPU service, arrivals,
admission/swap fixed point, SRTF dispatch. -/
def tickBody (s : Sim) : Sim :=
  let s0 := { s with eventos := [] }
  let s1 := cpuPhase s0
  let s2 := llegadas s1
  let s3 := intentarAdmision (fuelAdm s2) s2
  ejecutarPlanificador s3

/-- The state after the `n`-th `Tick()` of the GUI driver, which sets
`reloj := reloj + 1` (its `reloj == 0` special case is the same assignment)
and then calls `tick()`.  `run procs 0` is the state right after
construction. -/
def run (procs : List Proceso) : Nat → Sim
  | 0 => initState procs
  | n + 1 =>
    let s := run procs n
    tickBody { s with reloj := s.reloj + 1 }

/-! ### Snapshot / final report (`get_datos_gui`, `get_reporte_final`) -/

/-- `procesos_reporte` holds the same objects that flow through the queues;
the report sorts it by `id_proceso` before iterating.  In the value
embedding the current values are recovered from the queues and sorted the
same way. -/
def leId (a b : Proceso) : Bool := decide (a.id_proceso ≤ b.id_proceso)

def procesosReporte (s : Sim) : List Proceso :=
  ordenar leId (allProcs s)

/-- One row of the final report: either full metrics for a finished process
(retorno `T = t_fin - t_arribo`, espera `W = T - t_irrupcion`, respuesta
`R = t_primera_ejecucion - t_arribo`), or the "No admitido" marker row for a
process stuck in L/S that fits no user partition. -/
inductive FilaReporte where
  | metricas (pid arribo primeraCpu fin servicio espera respuesta retorno : Int)
  | noAdmitido (pid arribo servicio tamano : Int)
  deriving DecidableEq, Repr

def FilaReporte.esMetricas : FilaReporte → Bool
  | metricas .. => true
  | noAdmitido .. => false

/-- The final report.  The formatted decimal strings of the source are
modelled exactly: `promedios` is `none` when `procesos_contados == 0` (the
source then returns an empty dict, performing no division) and `some` of the
three exact averages otherwise; `throughput` is `none` when `reloj == 0`
(the source returns the literal string "0.000" without dividing). -/
structure ReporteFinal where
  procesos : List FilaReporte
  promedios : Option (ℚ × ℚ × ℚ)
  throughput : Option ℚ
  procesosContados : Nat
  tiempoFinal : Int

/-- `Simulador.get_reporte_final`. -/
def getReporteFinal (s : Sim) : ReporteFinal :=
  let rep := procesosReporte s
  let filas := rep.filterMap (fun p =>
    if p.t_fin ≠ -1 then
      let T := p.t_fin - p.t_arribo
      let W := T - p.t_irrupcion
      let R := p.t_primera_ejecucion - p.t_arribo
      some (FilaReporte.metricas p.id_proceso p.t_arribo p.t_primera_ejecucion p.t_fin
        p.t_irrupcion W R T)
    else if p.estado = .LS ∧ ¬cabeEnAlguna s.particiones p then
      some (FilaReporte.noAdmitido p.id_proceso p.t_arribo p.t_irrupcion p.tamano)
    else none)
  let contados := rep.filter (fun p => p.t_fin ≠ -1)
  let n : ℚ := contados.length
  let totalRetorno : ℚ := (contados.map (fun p => ((p.t_fin - p.t_arribo : Int) : ℚ))).sum
  let totalEspera : ℚ := (contados.map (fun p => ((p.t_fin - p.t_arribo - p.t_irrupcion : Int) : ℚ))).sum
  let totalRespuesta : ℚ := (contados.map (fun p => ((p.t_primera_ejecucion - p.t_arribo : Int) : ℚ))).sum
  { procesos := filas,
    promedios := if contados.length = 0 then none
                 else some (totalEspera / n, totalRespuesta / n, totalRetorno / n),
    throughput := if 0 < s.reloj then some (n / (s.reloj : ℚ)) else none,
    procesosContados := contados.length,
    tiempoFinal := s.reloj }

/-- SRTF dispatch correctness for a state: no ready process undercuts the
running one — strictly smaller remaining time, or equal remaining time with a
strictly earlier arrival into Ready. -/
def SRTFinv (t : Sim) : Prop :=
  ∀ r, t.running = some r → ∀ p ∈ t.listos,
    ¬(p.t_restante < r.t_restante) ∧
    ¬(p.t_restante = r.t_restante ∧ p.t_llegada_listo < r.t_llegada_listo)

/-- The multiset (as a list) of immutable identities of every process in the
engine: conservation says this never changes after construction. -/
def identidades (s : Sim) : List (Int × Int × Int × Int) :=
  (allProcs s).map ident

/-- The live (non-terminated) processes of a state. -/
def vivos (s : Sim) : List Proceso :=
  s.nuevos ++ s.ls ++ s.listos ++ s.running.toList

/-! ## Concrete scenarios used by the claims -/

/-- The spec's §8 scenario: `P1(size=120, arrival=0, burst=5)`,
`P2(size=40, arrival=0, burst=3)` on the fixed partition table. -/
def cohorteEscenario : List Proceso := [mkProceso 1 120 0 5, mkProceso 2 40 0 3]

/-- Six size-40 processes all arriving at `t = 0`. -/
def cohorteSeisA0 : List Proceso :=
  [mkProceso 1 40 0 3, mkProceso 2 40 0 3, mkProceso 3 40 0 3,
   mkProceso 4 40 0 3, mkProceso 5 40 0 3, mkProceso 6 40 0 3]

/-- An oversized process (300 KB > every partition) arriving at `t = 0`,
followed by five ordinary processes arriving at `t = 1`. -/
def cohorteConGigante : List Proceso :=
  [mkProceso 1 300 0 5, mkProceso 2 40 1 3, mkProceso 3 40 1 3,
   mkProceso 4 40 1 3, mkProceso 5 40 1 3, mkProceso 6 40 1 3]

/-- The same cohort with the oversized process removed. -/
def cohorteSinGigante : List Proceso :=
  [mkProceso 2 40 1 3, mkProceso 3 40 1 3,
   mkProceso 4 40 1 3, mkProceso 5 40 1 3, mkProceso 6 40 1 3]

/-- The oversized process as it sits in L/S from `t = 0` on. -/
def gigante : Proceso := { mkProceso 1 300 0 5 with estado := .LS }

/-- Memory-resident demo processes for a concrete swap. -/
def pDemoA : Proceso :=
  { mkProceso 10 100 0 9 with estado := .LISTO, id_particion := some 1, t_llegada_listo := 0 }

def pDemoB : Proceso :=
  { mkProceso 11 100 0 8 with estado := .LISTO, id_particion := some 2, t_llegada_listo := 0 }

def pDemoC : Proceso :=
  { mkProceso 12 40 0 7 with
    estado := .EJECUCION, id_particion := some 3, t_primera_ejecucion := 0 }

def pDemoD : Proceso := { mkProceso 13 40 1 1 with estado := .LS }

/-- A full-memory state: three residents occupy the three user partitions and
a short candidate waits in L/S, so a swap must fire. -/
def simSwapDemo : Sim :=
  { reloj := 5, nuevos := [], ls := [pDemoD], listos := [pDemoA, pDemoB],
    running := some pDemoC, terminados := [],
    particiones :=
      [ ⟨0, 100, true, 0, none⟩,
        ⟨1, 250, false, 100, some pDemoA⟩,
        ⟨2, 150, false, 350, some pDemoB⟩,
        ⟨3, 50, false, 500, some pDemoC⟩ ],
    eventos := [] }

def simSwapDemoOut : Sim := (intentarCandidato simSwapDemo pDemoD).getD simSwapDemo

/-- An empty-memory state with one L/S candidate, for a normal admission. -/
def pDemoE : Proceso := { mkProceso 7 40 0 3 with estado := .LS }

def simAdmDemo : Sim :=
  { reloj := 0, nuevos := [], ls := [pDemoE], listos := [], running := none,
    terminados := [], particiones := configParticiones, eventos := [] }

def simAdmDemoOut : Sim := (intentarCandidato simAdmDemo pDemoE).getD simAdmDemo

/-- The running and ready `P2`/`P1` values after the first `Tick()` of the
§8 scenario. -/
def p2Tick1 : Proceso :=
  { mkProceso 2 40 0 3 with
    estado := .EJECUCION, t_restante := 2, id_particion := some 3,
    t_primera_ejecucion := 0, t_llegada_listo := 0 }

def p1Tick1 : Proceso :=
  { mkProceso 1 120 0 5 with
    estado := .LISTO, id_particion := some 2, t_llegada_listo := 0 }

/-! ## Theorems

### Facts about the stable insertion sort -/

theorem perm_insertarOrdenado (le : α → α → Bool) (a : α) (l : List α) :
    List.Perm (insertarOrdenado le a l) (a :: l) := by
  induction l with
  | nil => simp [insertarOrdenado]
  | cons b t ih =>
    simp only [insertarOrdenado]
    by_cases h : le a b
    · simp [h]
    · simp only [h, if_false]
      exact List.Perm.trans (ih.cons b) (List.Perm.swap a b t)

theorem perm_ordenar (le : α → α → Bool) (l : List α) :
    List.Perm (ordenar le l) l := by
  induction l with
  | nil => simp [ordenar]
  | cons b t ih =>
    exact List.Perm.trans (perm_insertarOrdenado le b (ordenar le t)) (ih.cons b)

theorem length_ordenar (le : α → α → Bool) (l : List α) :
    (ordenar le l).length = l.length :=
  (perm_ordenar le l).length_eq

theorem mem_ordenar (le : α → α → Bool) (l : List α) (a : α) :
    a ∈ ordenar le l ↔ a ∈ l :=
  (perm_ordenar le l).mem_iff

theorem pairwise_insertarOrdenado (le : α → α → Bool)
    (htot : ∀ a b, le a b = true ∨ le b a = true)
    (htrans : ∀ a b c, le a b = true → le b c = true → le a c = true)
    (a : α) (l : List α)
    (hl : l.Pairwise (fun x y => le x y = true)) :
    (insertarOrdenado le a l).Pairwise (fun x y => le x y = true) := by
  induction l with
  | nil => simp [insertarOrdenado]
  | cons b t ih =>
    rcases List.pairwise_cons.mp hl with ⟨hb, ht⟩
    simp only [insertarOrdenado]
    by_cases h : le a b = true
    · simp only [h, if_true]
      refine List.pairwise_cons.mpr ⟨?_, hl⟩
      intro x hx
      rcases List.mem_cons.mp hx with rfl | hx
      · exact h
      · exact htrans a b x h (hb x hx)
    · simp only [h, if_false]
      refine List.pairwise_cons.mpr ⟨?_, ih ht⟩
      intro x hx
      have hx' := (perm_insertarOrdenado le a t).mem_iff.mp hx
      rcases List.mem_cons.mp hx' with rfl | hx''
      · rcases htot x b with hab | hba
        · exact absurd hab h
        · exact hba
      · exact hb x hx''

theorem pairwise_ordenar (le : α → α → Bool)
    (htot : ∀ a b, le a b = true ∨ le b a = true)
    (htrans : ∀ a b c, le a b = true → le b c = true → le a c = true)
    (l : List α) :
    (ordenar le l).Pairwise (fun x y => le x y = true) := by
  induction l with
  | nil => simp [ordenar]
  | cons b t ih => exact pairwise_insertarOrdenado le htot htrans b _ ih

/-- The head of a sorted nonempty list is `le` everything in the tail. -/
theorem head_min_of_pairwise {le : α → α → Bool} {c : α} {rest : List α}
    (h : (c :: rest).Pairwise (fun x y => le x y = true)) :
    ∀ x ∈ rest, le c x = true :=
  (List.pairwise_cons.mp h).1

/-! ### The sort keys are total preorders -/

theorem leArr_total : ∀ a b, leArr a b = true ∨ leArr b a = true := by
  intro a b
  simp only [leArr, decide_eq_true_eq]
  omega

theorem leArr_trans : ∀ a b c, leArr a b = true → leArr b c = true → leArr a c = true := by
  intro a b c
  simp only [leArr, decide_eq_true_eq]
  omega

theorem leLS_total : ∀ a b, leLS a b = true ∨ leLS b a = true := by
  intro a b
  simp only [leLS, decide_eq_true_eq]
  omega

theorem leLS_trans : ∀ a b c, leLS a b = true → leLS b c = true → leLS a c = true := by
  intro a b c
  simp only [leLS, decide_eq_true_eq]
  omega

theorem leListo_total : ∀ a b, leListo a b = true ∨ leListo b a = true := by
  intro a b
  simp only [leListo, decide_eq_true_eq]
  omega

theorem leListo_trans : ∀ a b c, leListo a b = true → leListo b c = true → leListo a c = true := by
  intro a b c
  simp only [leListo, decide_eq_true_eq]
  omega

theorem leId_total : ∀ a b, leId a b = true ∨ leId b a = true := by
  intro a b
  simp only [leId, decide_eq_true_eq]
  omega

theorem leId_trans : ∀ a b c, leId a b = true → leId b c = true → leId a c = true := by
  intro a b c
  simp only [leId, decide_eq_true_eq]
  omega

/-! ### Best-Fit correctness (`_encontrar_mejor_particion`) -/

theorem empAux_some_spec (pr : Proceso) :
    ∀ (parts : List Particion) (m P : Particion),
      LibreYCabe pr m →
      empAux pr (some m) parts = some P →
      LibreYCabe pr P ∧ (P = m ∨ P ∈ parts) ∧ P.tamano ≤ m.tamano ∧
        ∀ Q ∈ parts, LibreYCabe pr Q → P.tamano ≤ Q.tamano := by
  intro parts
  induction parts with
  | nil =>
    intro m P hm h
    simp only [empAux, Option.some.injEq] at h
    subst h
    exact ⟨hm, Or.inl rfl, le_refl _, by simp⟩
  | cons part rest ih =>
    intro m P hm h
    simp only [empAux] at h
    by_cases hfit : (part.estaLibre && decide (pr.tamano ≤ part.tamano)) = true
    · have hfit' : LibreYCabe pr part := by
        rcases (Bool.and_eq_true _ _).mp hfit with ⟨h1, h2⟩
        exact ⟨h1, of_decide_eq_true h2⟩
      rw [if_pos hfit] at h
      by_cases hcmp : part.tamano - pr.tamano < m.tamano - pr.tamano ∨
          (part.tamano - pr.tamano = m.tamano - pr.tamano ∧ part.tamano < m.tamano)
      · rw [if_pos hcmp] at h
        obtain ⟨hP, hmem, hle, hmin⟩ := ih part P hfit' h
        have hpm : part.tamano ≤ m.tamano := by omega
        refine ⟨hP, ?_, by omega, ?_⟩
        · rcases hmem with rfl | hmem
          · exact Or.inr (List.mem_cons_self _ _)
          · exact Or.inr (List.mem_cons_of_mem _ hmem)
        · intro Q hQ hQok
          rcases List.mem_cons.mp hQ with rfl | hQ'
          · exact hle
          · exact hmin Q hQ' hQok
      · rw [if_neg hcmp] at h
        obtain ⟨hP, hmem, hle, hmin⟩ := ih m P hm h
        have hmp : m.tamano ≤ part.tamano := by omega
        refine ⟨hP, ?_, hle, ?_⟩
        · rcases hmem with rfl | hmem
          · exact Or.inl rfl
          · exact Or.inr (List.mem_cons_of_mem _ hmem)
        · intro Q hQ hQok
          rcases List.mem_cons.mp hQ with rfl | hQ'
          · omega
          · exact hmin Q hQ' hQok
    · rw [if_neg hfit] at h
      obtain ⟨hP, hmem, hle, hmin⟩ := ih m P hm h
      refine ⟨hP, ?_, hle, ?_⟩
      · rcases hmem with rfl | hmem
        · exact Or.inl rfl
        · exact Or.inr (List.mem_cons_of_mem _ hmem)
      · intro Q hQ hQok
        rcases List.mem_cons.mp hQ with rfl | hQ'
        · exfalso
          rcases hQok with ⟨h1, h2⟩
          exact hfit (by simp [h1, h2])
        · exact hmin Q hQ' hQok

/-- Specification of `_encontrar_mejor_particion`: a returned partition is a
free member of the list that fits the process, and it has minimal size — and
therefore minimal internal fragmentation `tamano - pr.tamano` — among all
free fitting partitions of the list. -/
theorem encontrarMejorParticion_spec (pr : Proceso) :
    ∀ (parts : List Particion) (P : Particion),
      encontrarMejorParticion pr parts = some P →
      P ∈ parts ∧ LibreYCabe pr P ∧
        ∀ Q ∈ parts, LibreYCabe pr Q → P.tamano ≤ Q.tamano := by
  intro parts
  induction parts with
  | nil => intro P h; simp [encontrarMejorParticion, empAux] at h
  | cons part rest ih =>
    intro P h
    simp only [encontrarMejorParticion, empAux] at h
    by_cases hfit : (part.estaLibre && decide (pr.tamano ≤ part.tamano)) = true
    · have hfit' : LibreYCabe pr part := by
        rcases (Bool.and_eq_true _ _).mp hfit with ⟨h1, h2⟩
        exact ⟨h1, of_decide_eq_true h2⟩
      rw [if_pos hfit] at h
      obtain ⟨hP, hmem, hle, hmin⟩ := empAux_some_spec pr rest part P hfit' h
      refine ⟨?_, hP, ?_⟩
      · rcases hmem with rfl | hmem
        · exact List.mem_cons_self _ _
        · exact List.mem_cons_of_mem _ hmem
      · intro Q hQ hQok
        rcases List.mem_cons.mp hQ with rfl | hQ'
        · exact hle
        · exact hmin Q hQ' hQok
    · rw [if_neg hfit] at h
      obtain ⟨hmem, hP, hmin⟩ := ih P h
      refine ⟨List.mem_cons_of_mem _ hmem, hP, ?_⟩
      intro Q hQ hQok
      rcases List.mem_cons.mp hQ with rfl | hQ'
      · exfalso
        rcases hQok with ⟨h1, h2⟩
        exact hfit (by simp [h1, h2])
      · exact hmin Q hQ' hQok

/-- If no list member is free and fits, Best-Fit returns `none`
(equivalently, it never invents a partition). -/
theorem encontrarMejorParticion_none (pr : Proceso) (parts : List Particion)
    (h : ∀ Q ∈ parts, ¬LibreYCabe pr Q) :
    encontrarMejorParticion pr parts = none := by
  by_cases hr : encontrarMejorParticion pr parts = none
  · exact hr
  · obtain ⟨P, hP⟩ := Option.ne_none_iff_exists'.mp hr
    obtain ⟨hmem, hok, _⟩ := encontrarMejorParticion_spec pr parts P hP
    exact absurd hok (h P hmem)

/-! ### Swap-victim selection (`max` by `(t_restante, id)`) -/

theorem maxVictima_spec :
    ∀ (l : List Proceso) (v0 : Proceso),
      maxVictima v0 l ∈ v0 :: l ∧ ∀ w ∈ v0 :: l, LexVict w (maxVictima v0 l) := by
  intro l
  induction l with
  | nil =>
    intro v0
    refine ⟨List.mem_singleton_self _, ?_⟩
    intro w hw
    rcases List.mem_singleton.mp hw with rfl
    exact Or.inr ⟨rfl, le_refl _⟩
  | cons x rest ih =>
    intro v0
    have hstep : maxVictima v0 (x :: rest) =
        maxVictima (if v0.t_restante < x.t_restante ∨
          (v0.t_restante = x.t_restante ∧ v0.id_proceso < x.id_proceso) then x else v0) rest := by
      simp only [maxVictima, List.foldl_cons]
    set v1 := if v0.t_restante < x.t_restante ∨
          (v0.t_restante = x.t_restante ∧ v0.id_proceso < x.id_proceso) then x else v0 with hv1
    obtain ⟨ihmem, ihmax⟩ := ih v1
    have hv1mem : v1 = x ∨ v1 = v0 := by
      by_cases hc : v0.t_restante < x.t_restante ∨
          (v0.t_restante = x.t_restante ∧ v0.id_proceso < x.id_proceso)
      · rw [hv1, if_pos hc]; exact Or.inl rfl
      · rw [hv1, if_neg hc]; exact Or.inr rfl
    constructor
    · rw [hstep]
      rcases List.mem_cons.mp ihmem with h1 | h1
      · rcases hv1mem with h2 | h2
        · rw [h1, h2]; exact List.mem_cons_of_mem _ (List.mem_cons_self _ _)
        · rw [h1, h2]; exact List.mem_cons_self _ _
      · exact List.mem_cons_of_mem _ (List.mem_cons_of_mem _ h1)
    · intro w hw
      rw [hstep]
      have hv0v1 : LexVict v0 v1 := by
        by_cases hc : v0.t_restante < x.t_restante ∨
            (v0.t_restante = x.t_restante ∧ v0.id_proceso < x.id_proceso)
        · rw [hv1, if_pos hc]
          unfold LexVict; omega
        · rw [hv1, if_neg hc]
          exact Or.inr ⟨rfl, le_refl _⟩
      have hxv1 : LexVict x v1 := by
        by_cases hc : v0.t_restante < x.t_restante ∨
            (v0.t_restante = x.t_restante ∧ v0.id_proceso < x.id_proceso)
        · rw [hv1, if_pos hc]
          exact Or.inr ⟨rfl, le_refl _⟩
        · rw [hv1, if_neg hc]
          unfold LexVict at *; omega
      have htrans : ∀ a b c : Proceso, LexVict a b → LexVict b c → LexVict a c := by
        intro a b c h1 h2
        unfold LexVict at *; omega
      rcases List.mem_cons.mp hw with rfl | hw'
      · exact htrans _ _ _ hv0v1 (ihmax v1 (List.mem_cons_self _ _))
      · rcases List.mem_cons.mp hw' with rfl | hw''
        · exact htrans _ _ _ hxv1 (ihmax v1 (List.mem_cons_self _ _))
        · exact ihmax w (List.mem_cons_of_mem _ hw'')

/-! ### C6: swap soundness -/

/-- **C6.** A swap never occurs unless the evicted victim's remaining time
strictly exceeds the swapped-in candidate's and the victim's partition is at
least as large as the candidate; and the victim is maximal by
`(t_restante, id)` — largest remaining time, ties to the largest id — among
the memory-resident processes whose partition fits the candidate. -/
theorem swap_event_sound (s : Sim) (c : Proceso) (s' : Sim) (v cEv : Proceso) (pid : Int)
    (h : intentarCandidato s c = some s')
    (hev : s'.eventos = s.eventos ++ [Evento.swapEv v cEv pid]) :
    cEv = c ∧
    v ∈ s.listos ++ s.running.toList ∧
    (∃ pv, getParticion s.particiones (v.id_particion.getD (-1)) = some pv ∧
       pv.id_particion = pid ∧ c.tamano ≤ pv.tamano) ∧
    c.t_restante < v.t_restante ∧
    (∀ w ∈ s.listos ++ s.running.toList,
      (∃ pw, getParticion s.particiones (w.id_particion.getD (-1)) = some pw ∧
         c.tamano ≤ pw.tamano) → LexVict w v) := by
  simp only [intentarCandidato] at h
  split at h
  · -- normal-admission branch: its event is `admision`, contradicting `hev`
    split at h
    · exact absurd h (by simp)
    · rw [Option.some_inj] at h
      subst h
      simp at hev
  · split at h
    · -- memory full: swap branch
      split at h
      · exact absurd h (by simp)
      · rename_i v0 vrest heqf
        split at h
        · rename_i hlt
          split at h
          · exact absurd h (by simp)
          · rename_i partV hga
            rw [Option.some_inj] at h
            subst h
            simp only [List.append_cancel_left_eq, List.cons.injEq, and_true] at hev
            injection hev with hv hcEv hpid
            subst hv
            subst hcEv
            obtain ⟨hmem0, hmax0⟩ := maxVictima_spec vrest v0
            rw [← heqf] at hmem0
            have hmemf := List.mem_filter.mp hmem0
            refine ⟨rfl, hmemf.1, ?_, hlt, ?_⟩
            · refine ⟨partV, hga, hpid, ?_⟩
              have := hmemf.2
              rw [hga] at this
              exact of_decide_eq_true this
            · intro w hw hwfit
              obtain ⟨pw, hpw, hple⟩ := hwfit
              have hwpred : (match getParticion s.particiones (w.id_particion.getD (-1)) with
                  | some part => decide (c.tamano ≤ part.tamano)
                  | none => false) = true := by
                rw [hpw]
                exact decide_eq_true hple
              have hwval : w ∈ List.filter
                  (fun v => match getParticion s.particiones (v.id_particion.getD (-1)) with
                    | some part => decide (c.tamano ≤ part.tamano)
                    | none => false) (s.listos ++ s.running.toList) :=
                List.mem_filter.mpr ⟨hw, hwpred⟩
              rw [heqf] at hwval
              exact hmax0 w hwval
        · exact absurd h (by simp)
    · exact absurd h (by simp)

/-! ### C5: Best-Fit placement -/

theorem libres_freed_singleton :
    ∀ (parts : List Particion) (P : Particion),
      (parts.map (fun q => q.id_particion)).Nodup → P ∈ parts →
      (∀ Q ∈ parts, Q.estaLibre = false) → P.es_so = false →
      (setParticion parts { P with proceso_asignado := none }).filter Particion.estaLibre
        = [{ P with proceso_asignado := none }] := by
  intro parts
  induction parts with
  | nil => intro P _ hmem _ _; exact absurd hmem (List.not_mem_nil P)
  | cons q rest ih =>
    intro P hnodup hmem hall hso
    rw [List.map_cons] at hnodup
    have hnd := List.nodup_cons.mp hnodup
    have hProj : ({ P with proceso_asignado := none } : Particion).id_particion
        = P.id_particion := rfl
    by_cases hq : (q.id_particion == P.id_particion) = true
    · have hqid : q.id_particion = P.id_particion := by simpa using hq
      have hfree : Particion.estaLibre { P with proceso_asignado := none } = true := by
        simp [Particion.estaLibre, hso]
      have hrest : ∀ r ∈ rest, (r.id_particion == P.id_particion) = false := by
        intro r hr
        have hne : r.id_particion ≠ q.id_particion := by
          intro hcontra
          exact hnd.1 (hcontra ▸ List.mem_map_of_mem (fun x => x.id_particion) hr)
        rw [hqid] at hne
        simpa using hne
      simp only [setParticion, List.map_cons, hProj, hq, if_true, List.filter_cons, hfree,
        if_true]
      congr 1
      rw [List.filter_eq_nil_iff]
      intro r hr
      obtain ⟨r0, hr0, hr0e⟩ := List.mem_map.mp hr
      rw [hrest r0 hr0] at hr0e
      simp only [Bool.false_eq_true, if_false] at hr0e
      rw [← hr0e]
      simp [hall r0 (List.mem_cons_of_mem _ hr0)]
    · have hPrest : P ∈ rest := by
        rcases List.mem_cons.mp hmem with rfl | hm
        · simp at hq
        · exact hm
      have hql : Particion.estaLibre q = false := hall q (List.mem_cons_self _ _)
      simp only [setParticion, List.map_cons, hProj, hq, Bool.false_eq_true, if_false,
        List.filter_cons, hql]
      simpa [setParticion] using
        ih P hnd.2 hPrest (fun Q hQ => hall Q (List.mem_cons_of_mem _ hQ)) hso

/-- **C5.** Whenever `_intentar_admision` places a Suspended candidate into
memory, the chosen partition is free, non-reserved, fits the candidate, and
minimises `capacity - size` (with ties to the smaller capacity) over all free
partitions at the moment of placement: for a normal admission these are the
free partitions of the current state; for a swap, the victim's freed
partition is the *only* free partition at that moment (hypothesis `hfull`:
full memory means no free partition, which holds in every reachable state),
so it is trivially the Best Fit. -/
theorem placement_bestfit (s : Sim) (c : Proceso) (s' : Sim)
    (hnodup : (s.particiones.map (fun q => q.id_particion)).Nodup)
    (hfull : memCount s = 3 → libres s = [])
    (hresid : ∀ w ∈ s.listos ++ s.running.toList, ∀ pw,
       getParticion s.particiones (w.id_particion.getD (-1)) = some pw →
       pw.es_so = false)
    (h : intentarCandidato s c = some s') :
    (∀ pid, s'.eventos = s.eventos ++ [Evento.admision c pid] →
       ∃ P ∈ libres s, P.id_particion = pid ∧ P.estaLibre = true ∧ P.es_so = false ∧
         c.tamano ≤ P.tamano ∧
         ∀ Q ∈ libres s, c.tamano ≤ Q.tamano →
           (P.tamano - c.tamano ≤ Q.tamano - c.tamano ∧
             (P.tamano - c.tamano = Q.tamano - c.tamano → P.tamano ≤ Q.tamano)))
    ∧ (∀ v pid, s'.eventos = s.eventos ++ [Evento.swapEv v c pid] →
       ∃ P, getParticion s.particiones pid = some P ∧ P.es_so = false ∧
         c.tamano ≤ P.tamano ∧
         (setParticion s.particiones { P with proceso_asignado := none }).filter
           Particion.estaLibre = [{ P with proceso_asignado := none }]) := by
  simp only [intentarCandidato] at h
  split at h
  · rename_i hcond
    split at h
    · exact absurd h (by simp)
    · rename_i mejor hemp
      rw [Option.some_inj] at h
      subst h
      constructor
      · intro pid hev
        simp only [List.append_cancel_left_eq, List.cons.injEq, and_true] at hev
        injection hev with hc hpid
        obtain ⟨hmem, hok, hmin⟩ := encontrarMejorParticion_spec c (libres s) mejor hemp
        have hlibre : mejor.estaLibre = true := hok.1
        have hso : mejor.es_so = false := by
          have := hlibre
          simp only [Particion.estaLibre, Bool.and_eq_true, Bool.not_eq_true'] at this
          exact this.2
        refine ⟨mejor, hmem, hpid, hlibre, hso, hok.2, ?_⟩
        intro Q hQ hQfit
        have hQlibre : Q.estaLibre = true := by
          simp only [libres, List.mem_filter] at hQ
          exact hQ.2
        have := hmin Q hQ ⟨hQlibre, hQfit⟩
        omega
      · intro v pid hev
        simp at hev
  · split at h
    · rename_i hcond hpem
      split at h
      · exact absurd h (by simp)
      · rename_i v0 vrest heqf
        split at h
        · rename_i hlt
          split at h
          · exact absurd h (by simp)
          · rename_i partV hga
            rw [Option.some_inj] at h
            subst h
            constructor
            · intro pid hev
              simp at hev
            · intro v pid hev
              simp only [List.append_cancel_left_eq, List.cons.injEq, and_true] at hev
              injection hev with hv hc hpid
              subst hpid
              obtain ⟨hmem0, _⟩ := maxVictima_spec vrest v0
              rw [← heqf] at hmem0
              have hmemf := List.mem_filter.mp hmem0
              have hkey : partV.id_particion
                  = (maxVictima v0 vrest).id_particion.getD (-1) := by
                have := List.find?_some hga
                simpa using this
              have hfit : c.tamano ≤ partV.tamano := by
                have := hmemf.2
                rw [hga] at this
                exact of_decide_eq_true this
              have hso : partV.es_so = false := hresid _ hmemf.1 partV hga
              have hlib : libres s = [] := hfull hpem
              have hall : ∀ Q ∈ s.particiones, Q.estaLibre = false := by
                intro Q hQ
                have := List.filter_eq_nil_iff.mp hlib Q hQ
                simpa using this
              refine ⟨partV, ?_, hso, hfit, ?_⟩
              · rw [hkey]
                exact hga
              · exact libres_freed_singleton s.particiones partV hnodup
                  (List.mem_of_find?_eq_some hga) hall hso
        · exact absurd h (by simp)
    · exact absurd h (by simp)

/-- Witness for `swap_event_sound` at a concrete full-memory state: the
victim is `pDemoA` (largest remaining time 9, in the 250 KB partition) and
the candidate `pDemoD` (remaining 1) is strictly shorter; `pDemoB` is no
better a victim. -/
theorem swap_event_sound_witness :
    pDemoD.t_restante < pDemoA.t_restante ∧
    (∃ pv, getParticion simSwapDemo.particiones (pDemoA.id_particion.getD (-1)) = some pv ∧
       pv.id_particion = 1 ∧ pDemoD.tamano ≤ pv.tamano) ∧
    LexVict pDemoB pDemoA := by
  have h := swap_event_sound simSwapDemo pDemoD simSwapDemoOut pDemoA pDemoD 1
    (by decide) (by decide)
  refine ⟨h.2.2.2.1, h.2.2.1, ?_⟩
  exact h.2.2.2.2 pDemoB (by decide)
    ⟨⟨2, 150, false, 350, some pDemoB⟩, by decide, by decide⟩

/-- Witness for `placement_bestfit` at a concrete admission: the 40 KB
candidate is placed into partition 3 (50 KB), the Best Fit of the three free
partitions. -/
theorem placement_bestfit_witness :
    ∃ P ∈ libres simAdmDemo, P.id_particion = 3 ∧ P.estaLibre = true ∧ P.es_so = false ∧
      pDemoE.tamano ≤ P.tamano ∧
      ∀ Q ∈ libres simAdmDemo, pDemoE.tamano ≤ Q.tamano →
        (P.tamano - pDemoE.tamano ≤ Q.tamano - pDemoE.tamano ∧
          (P.tamano - pDemoE.tamano = Q.tamano - pDemoE.tamano → P.tamano ≤ Q.tamano)) := by
  have h := placement_bestfit simAdmDemo pDemoE simAdmDemoOut
    (by decide) (by decide)
    (by intro w hw; simp [simAdmDemo] at hw)
    (by decide)
  exact h.1 3 (by decide)

/-! ### C7: SRTF correctness -/

theorem leListo_of_sorted_head {c : Proceso} {rest : List Proceso} {l : List Proceso}
    (h : ordenar leListo l = c :: rest) : ∀ p ∈ rest, leListo c p = true := by
  have hpw := pairwise_ordenar leListo leListo_total leListo_trans l
  rw [h] at hpw
  exact head_min_of_pairwise hpw

/-- `_ejecutar_planificador` (re)establishes the SRTF invariant from any
state: either the ready queue head is dispatched, or the running process
survives precisely because the head does not undercut it. -/
theorem ejecutarPlanificador_srtf (s : Sim) : SRTFinv (ejecutarPlanificador s) := by
  unfold ejecutarPlanificador
  split
  · rename_i hnil
    intro r _ p hp
    rw [hnil] at hp
    exact absurd hp (List.not_mem_nil p)
  · rename_i a L hcons
    cases hrun : s.running with
    | none =>
      simp only [hrun]
      cases hq : ordenar leListo s.listos with
      | nil =>
        intro r _ p hp
        exact absurd hp (List.not_mem_nil p)
      | cons c rest =>
        dsimp only
        intro r hr p hp
        simp only [Option.some_inj] at hr
        subst hr
        have hle := leListo_of_sorted_head hq p hp
        simp only [leListo, decide_eq_true_eq] at hle
        dsimp only
        constructor
        · intro hcon; omega
        · intro hcon; omega
    | some run =>
      simp only [hrun]
      cases hq : ordenar leListo s.listos with
      | nil =>
        intro r _ p hp
        exact absurd hp (List.not_mem_nil p)
      | cons c rest0 =>
        dsimp only
        by_cases hguard : c.t_restante < run.t_restante ∨
            (c.t_restante = run.t_restante ∧ c.t_llegada_listo < run.t_llegada_listo)
        · rw [if_pos hguard]
          split
          · intro r hr p hp
            exact absurd hp (List.not_mem_nil p)
          · rename_i ent rest hq2
            intro r hr p hp
            simp only [Option.some_inj] at hr
            subst hr
            have hle := leListo_of_sorted_head hq2 p hp
            simp only [leListo, decide_eq_true_eq] at hle
            dsimp only
            constructor
            · intro hcon; omega
            · intro hcon; omega
        · rw [if_neg hguard]
          intro r hr p hp
          simp only [Option.some_inj] at hr
          subst hr
          rcases List.mem_cons.mp hp with rfl | hp'
          · constructor
            · intro hcon; exact hguard (Or.inl hcon)
            · intro hcon; exact hguard (Or.inr hcon)
          · have hle := leListo_of_sorted_head hq p hp'
            simp only [leListo, decide_eq_true_eq] at hle
            constructor
            · intro hcon; omega
            · intro hcon
              rcases hle with h1 | h2
              · exact hguard (Or.inl (by omega))
              · exact hguard (by omega)

/-- Every observable state is the image of the scheduler phase: both the
constructor and each tick end by running `_ejecutar_planificador`. -/
theorem run_es_planificador (procs : List Proceso) (n : Nat) :
    ∃ s', run procs n = ejecutarPlanificador s' := by
  cases n with
  | zero => exact ⟨_, rfl⟩
  | succ m => exact ⟨_, rfl⟩

/-- **C7.** At the end of every completed tick (and of construction) in which
the CPU is busy, no Ready process has strictly smaller remaining time than
the Running process, nor equal remaining time with a strictly earlier
`ready_since` (`t_llegada_listo`). -/
theorem srtf_fin_de_tick (procs : List Proceso) (n : Nat) (r p : Proceso)
    (hr : (run procs n).running = some r) (hp : p ∈ (run procs n).listos) :
    ¬(p.t_restante < r.t_restante) ∧
    ¬(p.t_restante = r.t_restante ∧ p.t_llegada_listo < r.t_llegada_listo) := by
  obtain ⟨s', hs'⟩ := run_es_planificador procs n
  rw [hs'] at hr hp
  exact ejecutarPlanificador_srtf s' r hr p hp

/-- Witness: in the §8 scenario after the first `Tick()`, `P2` runs with
remaining 2 and ready `P1` (remaining 5) does not undercut it. -/
theorem srtf_fin_de_tick_witness :
    ¬(p1Tick1.t_restante < p2Tick1.t_restante) ∧
    ¬(p1Tick1.t_restante = p2Tick1.t_restante ∧
        p1Tick1.t_llegada_listo < p2Tick1.t_llegada_listo) :=
  srtf_fin_de_tick cohorteEscenario 1 p2Tick1 p1Tick1 (by decide) (by decide)

/-! ### C1: the §8 scenario -/

/-- **C1, counterexample.** In the §8 scenario the snapshot after the first
`Tick()` does *not* show `P1` in the 250 KB partition nor `P2` in the 150 KB
partition: the 250 KB partition (id 1) is empty, and the 150 KB partition
(id 2) holds `P1` with internal fragmentation 30.  (Best-Fit placed the
shorter `P2` first, into the 50 KB partition, and then `P1` into the 150 KB
one; the claim's placements would in fact violate Best-Fit.) -/
theorem escenario_refutado :
    (getParticion (run cohorteEscenario 1).particiones 1).map
        (fun q => q.proceso_asignado.map (fun pr => pr.id_proceso)) = some none ∧
    (getParticion (run cohorteEscenario 1).particiones 2).map
        (fun q => (q.proceso_asignado.map (fun pr => pr.id_proceso), q.fragmentacionInterna))
      = some (some 1, 30) := by
  decide

/-- **C1, amended.** After the first `Tick()` of the §8 scenario, `P2` is
Running (remaining 2), `P1` is memory-resident in state Ready, and the
partition snapshot shows `P1` in the 150 KB partition (internal
fragmentation 30) and `P2` in the 50 KB partition (internal fragmentation
10), the 250 KB partition remaining free. -/
theorem escenario_amended :
    (run cohorteEscenario 1).running = some p2Tick1 ∧
    (run cohorteEscenario 1).listos = [p1Tick1] ∧
    (getParticion (run cohorteEscenario 1).particiones 2).map
        (fun q => (q.tamano, q.proceso_asignado.map (fun pr => pr.id_proceso),
          q.fragmentacionInterna)) = some (150, some 1, 30) ∧
    (getParticion (run cohorteEscenario 1).particiones 3).map
        (fun q => (q.tamano, q.proceso_asignado.map (fun pr => pr.id_proceso),
          q.fragmentacionInterna)) = some (50, some 2, 10) ∧
    (getParticion (run cohorteEscenario 1).particiones 1).map
        (fun q => (q.tamano, q.proceso_asignado.isNone)) = some (250, true) := by
  decide

/-! ### C2: the system-slot limit is not enforced at tick 0 -/

/-- **C2 fails on the code.** `_guardar_estado_inicial` moves *every*
`t_arribo = 0` process into L/S with no GDM check (its own comment says
"si GDM lo permite"), so with six processes arriving at `t = 0` the number
of processes in {Suspended, Ready, Running} right after construction is 6,
exceeding `SYSTEM_SLOT_LIMIT = 5`. -/
theorem gdm_excedido_en_t0 : countSys (run cohorteSeisA0 0) = 6 := by
  decide

/-! ### C8: conservation of the cohort -/

theorem ident_asignarProceso (part : Particion) (pr : Proceso) :
    ident (asignarProceso part pr).2 = ident pr := by
  unfold asignarProceso
  split
  · rfl
  · rfl

theorem tomaIguales_append (reloj : Int) :
    ∀ (l : List Proceso) (g : Nat),
      (tomaIguales reloj l g).2.2 ++ (tomaIguales reloj l g).1 = l := by
  intro l
  induction l with
  | nil => intro g; simp [tomaIguales]
  | cons p rest ih =>
    intro g
    by_cases h : p.t_arribo = reloj ∧ g < 5
    · simp only [tomaIguales, if_pos h, List.cons_append, List.cons.injEq, true_and]
      exact ih (g + 1)
    · simp [tomaIguales, if_neg h]

theorem tomaMenores_append (reloj : Int) :
    ∀ (l : List Proceso) (g : Nat),
      (tomaMenores reloj l g).2.2 ++ (tomaMenores reloj l g).1 = l := by
  intro l
  induction l with
  | nil => intro g; simp [tomaMenores]
  | cons p rest ih =>
    intro g
    by_cases h : p.t_arribo < reloj ∧ g < 5
    · simp only [tomaMenores, if_pos h, List.cons_append, List.cons.injEq, true_and]
      exact ih (g + 1)
    · simp [tomaMenores, if_neg h]

theorem identidades_cpuPhase (s : Sim) :
    List.Perm (identidades (cpuPhase s)) (identidades s) := by
  unfold cpuPhase
  cases hrun : s.running with
  | none => exact List.Perm.refl _
  | some cur0 =>
    dsimp only
    split
    · simp only [identidades, allProcs, hrun, Option.toList_some, Option.toList_none,
        List.map_append, List.append_assoc, List.nil_append, List.map_cons, List.map_nil,
        List.append_nil]
      refine List.Perm.append_left _ (List.Perm.append_left _ (List.Perm.append_left _ ?_))
      simp [ident]
    · simp [identidades, allProcs, hrun, ident]

theorem map_ident_estado (e : EstadoProc) (l : List Proceso) :
    List.map ident (l.map (fun p => { p with estado := e })) = List.map ident l := by
  induction l with
  | nil => rfl
  | cons p rest ih => simp [ident, ih]

theorem identidades_llegadas (s : Sim) :
    List.Perm (identidades (llegadas s)) (identidades s) := by
  unfold llegadas
  have h1 := tomaIguales_append s.reloj s.nuevos (countSys s)
  have h2 := tomaMenores_append s.reloj (tomaIguales s.reloj s.nuevos (countSys s)).1
    (tomaIguales s.reloj s.nuevos (countSys s)).2.1
  rw [← Multiset.coe_eq_coe]
  simp only [identidades, allProcs, List.map_append, map_ident_estado,
    ← Multiset.coe_add, List.append_assoc]
  rw [← congrArg (fun l => (↑(List.map ident l) : Multiset (Int × Int × Int × Int))) h1]
  simp only [List.map_append, ← Multiset.coe_add]
  rw [← congrArg (fun l => (↑(List.map ident l) : Multiset (Int × Int × Int × Int))) h2]
  simp only [List.map_append, ← Multiset.coe_add]
  abel

theorem asignarProceso_id_proceso (part : Particion) (pr : Proceso) :
    (asignarProceso part pr).2.id_proceso = pr.id_proceso := by
  unfold asignarProceso; split <;> rfl

theorem asignarProceso_tamano (part : Particion) (pr : Proceso) :
    (asignarProceso part pr).2.tamano = pr.tamano := by
  unfold asignarProceso; split <;> rfl

theorem asignarProceso_t_arribo (part : Particion) (pr : Proceso) :
    (asignarProceso part pr).2.t_arribo = pr.t_arribo := by
  unfold asignarProceso; split <;> rfl

theorem asignarProceso_t_irrupcion (part : Particion) (pr : Proceso) :
    (asignarProceso part pr).2.t_irrupcion = pr.t_irrupcion := by
  unfold asignarProceso; split <;> rfl

/-- One admission or swap preserves the multiset of process identities. -/
theorem identidades_intentarCandidato (s : Sim) (c : Proceso) (s' : Sim)
    (hc : c ∈ s.ls) (h : intentarCandidato s c = some s') :
    List.Perm (identidades s') (identidades s) := by
  have hco : ∀ (X : List Proceso) (d : Proceso), d ∈ X →
      ({ident d} : Multiset (Int × Int × Int × Int)) + ↑(List.map ident (X.erase d))
        = ↑(List.map ident X) := by
    intro X d hd
    rw [Multiset.singleton_add, Multiset.cons_coe, Multiset.coe_eq_coe]
    exact ((List.perm_cons_erase hd).map ident).symm
  simp only [intentarCandidato] at h
  split at h
  · split at h
    · exact absurd h (by simp)
    · rename_i mejor hemp
      rw [Option.some_inj] at h
      subst h
      rw [← Multiset.coe_eq_coe]
      simp only [identidades, allProcs, List.map_append, ← Multiset.coe_add,
        List.map_cons, List.map_nil, Multiset.coe_singleton]
      rw [← hco s.ls c hc]
      simp only [ident, asignarProceso_id_proceso, asignarProceso_tamano,
        asignarProceso_t_arribo, asignarProceso_t_irrupcion]
      abel
  · split at h
    · split at h
      · exact absurd h (by simp)
      · rename_i v0 vrest heqf
        split at h
        · rename_i hlt
          split at h
          · exact absurd h (by simp)
          · rename_i partV hga
            rw [Option.some_inj] at h
            subst h
            have hvm : maxVictima v0 vrest ∈ s.listos ++ s.running.toList := by
              obtain ⟨hm, _⟩ := maxVictima_spec vrest v0
              rw [← heqf] at hm
              exact (List.mem_filter.mp hm).1
            have hcls : c ∈ s.ls ++ [{ maxVictima v0 vrest with
                estado := EstadoProc.LS, id_particion := none }] :=
              List.mem_append_left _ hc
            by_cases hvr : (s.running == some (maxVictima v0 vrest)) = true
            · have hrun : s.running = some (maxVictima v0 vrest) := by
                simpa using hvr
              rw [← Multiset.coe_eq_coe]
              simp only [hvr, if_true, List.erase_append_left _ hc]
              simp only [identidades, allProcs, hrun, Option.toList_some,
                Option.toList_none, List.map_append, ← Multiset.coe_add,
                List.map_cons, List.map_nil, Multiset.coe_singleton]
              rw [← hco s.ls c hc]
              simp only [ident, asignarProceso_id_proceso, asignarProceso_tamano,
                asignarProceso_t_arribo, asignarProceso_t_irrupcion]
              abel
            · have hvlist : maxVictima v0 vrest ∈ s.listos := by
                rcases List.mem_append.mp hvm with h1 | h1
                · exact h1
                · exfalso
                  cases hrs : s.running with
                  | none => rw [hrs] at h1; simp at h1
                  | some rp =>
                    rw [hrs] at h1
                    simp only [Option.toList_some, List.mem_singleton] at h1
                    rw [hrs, h1] at hvr
                    simp at hvr
              rw [← Multiset.coe_eq_coe]
              simp only [hvr, if_false, List.erase_append_left _ hc]
              simp only [identidades, allProcs, List.map_append, ← Multiset.coe_add,
                List.map_cons, List.map_nil, Multiset.coe_singleton]
              rw [← hco s.ls c hc, ← hco s.listos _ hvlist]
              simp only [ident, asignarProceso_id_proceso, asignarProceso_tamano,
                asignarProceso_t_arribo, asignarProceso_t_irrupcion]
              abel
        · exact absurd h (by simp)
    · exact absurd h (by simp)

theorem identidades_sortLS (s : Sim) :
    List.Perm (identidades (sortLS s)) (identidades s) := by
  rw [← Multiset.coe_eq_coe]
  simp only [identidades, allProcs, sortLS, List.map_append, ← Multiset.coe_add]
  rw [Multiset.coe_eq_coe.mpr ((perm_ordenar leLS s.ls).map ident)]

theorem identidades_buscarCambio (s s' : Sim) (h : buscarCambio s = some s') :
    List.Perm (identidades s') (identidades s) := by
  obtain ⟨c, hc, hcs⟩ := List.exists_of_findSome?_eq_some h
  exact identidades_intentarCandidato s c s' hc hcs

theorem identidades_intentarAdmision :
    ∀ (fuel : Nat) (s : Sim),
      List.Perm (identidades (intentarAdmision fuel s)) (identidades s) := by
  intro fuel
  induction fuel with
  | zero => intro s; exact List.Perm.refl _
  | succ n ih =>
    intro s
    simp only [intentarAdmision]
    cases hb : buscarCambio (sortLS s) with
    | none => exact identidades_sortLS s
    | some s2 =>
      exact (ih s2).trans ((identidades_buscarCambio _ _ hb).trans (identidades_sortLS s))

theorem ident_mk (a b c d : Int) (e : EstadoProc) (f : Int) (g : Option Int)
    (h i j : Int) :
    ident ⟨a, b, c, d, e, f, g, h, i, j⟩ = (a, b, c, d) := rfl

theorem identidades_ejecutarPlanificador (s : Sim) :
    List.Perm (identidades (ejecutarPlanificador s)) (identidades s) := by
  unfold ejecutarPlanificador
  split
  · exact List.Perm.refl _
  · rename_i a L hcons
    cases hrun : s.running with
    | none =>
      simp only [hrun]
      cases hq : ordenar leListo s.listos with
      | nil =>
        exfalso
        have hlen := (perm_ordenar leListo s.listos).length_eq
        rw [hq, hcons] at hlen
        simp at hlen
      | cons c rest =>
        dsimp only
        have hperm : List.Perm s.listos (c :: rest) := by
          rw [← hq]; exact (perm_ordenar leListo s.listos).symm
        rw [← Multiset.coe_eq_coe]
        simp only [identidades, allProcs, hrun, Option.toList_some, Option.toList_none,
          List.map_append, ← Multiset.coe_add, List.map_cons, List.map_nil,
          Multiset.coe_singleton]
        rw [Multiset.coe_eq_coe.mpr (hperm.map ident)]
        simp only [List.map_cons, ← Multiset.cons_coe, ← Multiset.singleton_add, ident]
        abel
    | some run =>
      simp only [hrun]
      cases hq : ordenar leListo s.listos with
      | nil =>
        exfalso
        have hlen := (perm_ordenar leListo s.listos).length_eq
        rw [hq, hcons] at hlen
        simp at hlen
      | cons c rest0 =>
        dsimp only
        have hperm : List.Perm s.listos (c :: rest0) := by
          rw [← hq]; exact (perm_ordenar leListo s.listos).symm
        split
        · split
          · rename_i hq2
            exfalso
            have hlen := (perm_ordenar leListo
              (c :: rest0 ++
                [{ run with estado := EstadoProc.LISTO, t_llegada_listo := s.reloj }])).length_eq
            rw [hq2] at hlen
            simp at hlen
          · rename_i ent rest hq2
            have hperm2 : List.Perm (s.listos ++
                [{ run with estado := EstadoProc.LISTO, t_llegada_listo := s.reloj }])
                (ent :: rest) := by
              rw [← hq2]
              exact (hperm.append_right _).trans (perm_ordenar leListo _).symm
            have hE := Multiset.coe_eq_coe.mpr (hperm2.map ident)
            simp only [List.map_append, List.map_cons, List.map_nil, ← Multiset.coe_add,
              Multiset.coe_singleton, ← Multiset.cons_coe, ← Multiset.singleton_add,
              Multiset.coe_nil, add_zero, ident_mk] at hE
            rw [show ((run.id_proceso, run.tamano, run.t_arribo, run.t_irrupcion)
                : Int × Int × Int × Int) = ident run from rfl] at hE
            rw [← Multiset.coe_eq_coe]
            simp only [identidades, allProcs, hrun, Option.toList_some, Option.toList_none,
              List.map_append, ← Multiset.coe_add, List.map_cons, List.map_nil,
              Multiset.coe_singleton, ident_mk]
            rw [show ((ent.id_proceso, ent.tamano, ent.t_arribo, ent.t_irrupcion)
                : Int × Int × Int × Int) = ident ent from rfl]
            have hmid := congrArg
              (fun m => (↑(List.map ident s.nuevos) + ↑(List.map ident s.ls)
                + ↑(List.map ident s.terminados) : Multiset (Int × Int × Int × Int)) + m)
              hE
            exact (Eq.trans (by abel) hmid.symm).trans (by abel)
        · rw [← Multiset.coe_eq_coe]
          simp only [identidades, allProcs, hrun, Option.toList_some, List.map_append,
            ← Multiset.coe_add]
          rw [Multiset.coe_eq_coe.mpr (hperm.map ident)]

theorem identidades_tickBody (s : Sim) :
    List.Perm (identidades (tickBody s)) (identidades s) := by
  unfold tickBody
  refine (identidades_ejecutarPlanificador _).trans ?_
  refine (identidades_intentarAdmision _ _).trans ?_
  refine (identidades_llegadas _).trans ?_
  exact identidades_cpuPhase { s with eventos := [] }

theorem identidades_guardarEstadoInicial (s : Sim) :
    List.Perm (identidades (guardarEstadoInicial s)) (identidades s) := by
  unfold guardarEstadoInicial
  refine (identidades_ejecutarPlanificador _).trans ?_
  refine (identidades_intentarAdmision _ _).trans ?_
  have hsplit := List.takeWhile_append_dropWhile
    (fun p : Proceso => p.t_arribo == 0) s.nuevos
  rw [← Multiset.coe_eq_coe]
  simp only [identidades, allProcs, List.map_append, map_ident_estado, ← Multiset.coe_add]
  rw [← congrArg (fun l => (↑(List.map ident l) : Multiset (Int × Int × Int × Int))) hsplit]
  simp only [List.map_append, ← Multiset.coe_add]
  abel

/-- The multiset of process identities of any reachable state is that of the
cohort selected at construction. -/
theorem identidades_run (procs : List Proceso) :
    ∀ n : Nat, List.Perm (identidades (run procs n)) ((cohortOf procs).map ident) := by
  intro n
  induction n with
  | zero =>
    refine (identidades_guardarEstadoInicial _).trans ?_
    simp [identidades, allProcs]
  | succ m ih =>
    refine (identidades_tickBody _).trans ?_
    exact ih

/-- **C8.** Conservation: at every tick,
`|New| + |Suspended| + |Ready| + (1 if Running) + |Terminated|` equals the
size of the cohort fixed at construction — no process is created, duplicated
or dropped by CPU service, admission, swap or dispatch. -/
theorem conservacion (procs : List Proceso) (n : Nat) :
    (run procs n).nuevos.length + (run procs n).ls.length + (run procs n).listos.length
      + (if (run procs n).running.isSome then 1 else 0) + (run procs n).terminados.length
    = (cohortOf procs).length := by
  have hperm := identidades_run procs n
  have hlen := hperm.length_eq
  simp only [identidades, List.length_map, allProcs, List.length_append] at hlen
  have htol : (run procs n).running.toList.length
      = if (run procs n).running.isSome then 1 else 0 := by
    cases (run procs n).running <;> simp
  omega

/-! ### Frame lemmas: what each phase leaves untouched -/

theorem cpuPhase_frame (s : Sim) :
    (cpuPhase s).nuevos = s.nuevos ∧ (cpuPhase s).ls = s.ls ∧
    (cpuPhase s).listos = s.listos ∧ (cpuPhase s).reloj = s.reloj := by
  unfold cpuPhase
  cases s.running with
  | none => exact ⟨rfl, rfl, rfl, rfl⟩
  | some cur0 =>
    dsimp only
    split
    · exact ⟨rfl, rfl, rfl, rfl⟩
    · exact ⟨rfl, rfl, rfl, rfl⟩

theorem llegadas_frame (s : Sim) :
    (llegadas s).listos = s.listos ∧ (llegadas s).running = s.running ∧
    (llegadas s).terminados = s.terminados ∧ (llegadas s).reloj = s.reloj ∧
    (llegadas s).particiones = s.particiones := by
  exact ⟨rfl, rfl, rfl, rfl, rfl⟩

theorem intentarCandidato_frame (s : Sim) (c : Proceso) (s' : Sim)
    (h : intentarCandidato s c = some s') :
    s'.nuevos = s.nuevos ∧ s'.terminados = s.terminados ∧ s'.reloj = s.reloj := by
  simp only [intentarCandidato] at h
  split at h
  · split at h
    · exact absurd h (by simp)
    · rw [Option.some_inj] at h
      subst h
      exact ⟨rfl, rfl, rfl⟩
  · split at h
    · split at h
      · exact absurd h (by simp)
      · split at h
        · split at h
          · exact absurd h (by simp)
          · rw [Option.some_inj] at h
            subst h
            exact ⟨rfl, rfl, rfl⟩
        · exact absurd h (by simp)
    · exact absurd h (by simp)

theorem intentarAdmision_frame :
    ∀ (fuel : Nat) (s : Sim),
      (intentarAdmision fuel s).nuevos = s.nuevos ∧
      (intentarAdmision fuel s).terminados = s.terminados ∧
      (intentarAdmision fuel s).reloj = s.reloj := by
  intro fuel
  induction fuel with
  | zero => intro s; exact ⟨rfl, rfl, rfl⟩
  | succ m ih =>
    intro s
    simp only [intentarAdmision]
    cases hb : buscarCambio (sortLS s) with
    | none => exact ⟨rfl, rfl, rfl⟩
    | some s2 =>
      obtain ⟨c, _, hcs⟩ := List.exists_of_findSome?_eq_some hb
      obtain ⟨h1, h2, h3⟩ := intentarCandidato_frame _ c s2 hcs
      obtain ⟨g1, g2, g3⟩ := ih s2
      exact ⟨g1.trans h1, g2.trans h2, g3.trans h3⟩

theorem ejecutarPlanificador_frame (s : Sim) :
    (ejecutarPlanificador s).nuevos = s.nuevos ∧ (ejecutarPlanificador s).ls = s.ls ∧
    (ejecutarPlanificador s).terminados = s.terminados ∧
    (ejecutarPlanificador s).particiones = s.particiones ∧
    (ejecutarPlanificador s).reloj = s.reloj := by
  unfold ejecutarPlanificador
  split
  · exact ⟨rfl, rfl, rfl, rfl, rfl⟩
  · cases s.running with
    | none =>
      dsimp only
      split
      · exact ⟨rfl, rfl, rfl, rfl, rfl⟩
      · exact ⟨rfl, rfl, rfl, rfl, rfl⟩
    | some run =>
      dsimp only
      split
      · exact ⟨rfl, rfl, rfl, rfl, rfl⟩
      · split
        · split
          · exact ⟨rfl, rfl, rfl, rfl, rfl⟩
          · exact ⟨rfl, rfl, rfl, rfl, rfl⟩
        · exact ⟨rfl, rfl, rfl, rfl, rfl⟩

/-- The clock is driven only by the stepping driver: `run procs n` is at
time `n`. -/
theorem reloj_run (procs : List Proceso) : ∀ n : Nat, (run procs n).reloj = n := by
  intro n
  induction n with
  | zero =>
    show (initState procs).reloj = 0
    unfold initState guardarEstadoInicial
    rw [(ejecutarPlanificador_frame _).2.2.2.2, (intentarAdmision_frame _ _).2.2]
  | succ m ih =>
    show (tickBody _).reloj = (m + 1 : Nat)
    unfold tickBody
    rw [(ejecutarPlanificador_frame _).2.2.2.2, (intentarAdmision_frame _ _).2.2,
      (llegadas_frame _).2.2.2.1, (cpuPhase_frame _).2.2.2]
    simp [ih]

/-! ### C9: cohort selection at construction -/

theorem map_ident_reset (l : List Proceso) :
    (l.map resetProc).map ident = l.map ident := by
  induction l with
  | nil => rfl
  | cons p rest ih => simp [ident, resetProc, ih]

/-- **C9.** At construction the simulated cohort is the first
`min(10, n)` process definitions in ascending `(arrival_time, id)` order
(`ordenar leArr` sorts a permutation of the input, the cohort is its
10-prefix), every selected process starts in NUEVO with its dynamic fields
reset, no selected process sorts after a discarded one, and at every later
tick the engine contains exactly processes of the selected identities — the
discarded definitions are never simulated. -/
theorem seleccion_cohorte (procs : List Proceso) :
    List.Perm (ordenar leArr procs) procs ∧
    (ordenar leArr procs).Pairwise (fun a b => leArr a b = true) ∧
    (cohortOf procs).map ident = ((ordenar leArr procs).take 10).map ident ∧
    (cohortOf procs).length = min 10 procs.length ∧
    (∀ p ∈ cohortOf procs, ∀ q ∈ (ordenar leArr procs).drop 10, leArr p q = true) ∧
    (∀ p ∈ cohortOf procs, p.estado = EstadoProc.NUEVO ∧ p.t_restante = p.t_irrupcion ∧
       p.id_particion = none ∧ p.t_fin = -1 ∧ p.t_primera_ejecucion = -1 ∧
       p.t_llegada_listo = -1) ∧
    (∀ n : Nat, ∀ q ∈ allProcs (run procs n), ident q ∈ (cohortOf procs).map ident) := by
  have hpw := pairwise_ordenar leArr leArr_total leArr_trans procs
  refine ⟨perm_ordenar leArr procs, hpw, map_ident_reset _, ?_, ?_, ?_, ?_⟩
  · simp [cohortOf, length_ordenar]
  · intro p hp q hq
    rw [← List.take_append_drop 10 (ordenar leArr procs)] at hpw
    have hsplit := (List.pairwise_append.mp hpw).2.2
    simp only [cohortOf, List.mem_map] at hp
    obtain ⟨p0, hp0, rfl⟩ := hp
    have := hsplit p0 hp0 q hq
    simpa [leArr, resetProc] using this
  · intro p hp
    simp only [cohortOf, List.mem_map] at hp
    obtain ⟨p0, _, rfl⟩ := hp
    exact ⟨rfl, rfl, rfl, rfl, rfl, rfl⟩
  · intro n q hq
    have hperm := identidades_run procs n
    have : ident q ∈ identidades (run procs n) :=
      List.mem_map_of_mem ident hq
    exact hperm.mem_iff.mp this

/-! ### C4: an oversized process -/

theorem asignarProceso_fst_tamano (part : Particion) (pr : Proceso) :
    (asignarProceso part pr).1.tamano = part.tamano := by
  unfold asignarProceso; split <;> rfl

theorem caps_lt_liberarPorOpt (parts : List Particion) (oi : Option Int) (t : Int)
    (h : ∀ Q ∈ parts, Q.tamano < t) :
    ∀ Q ∈ liberarPorOpt parts oi, Q.tamano < t := by
  cases oi with
  | none => exact h
  | some i =>
    intro Q hQ
    obtain ⟨Q0, hQ0, hQe⟩ := List.mem_map.mp hQ
    by_cases hb : (Q0.id_particion == i) = true
    · rw [if_pos hb] at hQe
      rw [← hQe]
      exact h Q0 hQ0
    · rw [if_neg hb] at hQe
      rw [← hQe]
      exact h Q0 hQ0

theorem caps_lt_setParticion (parts : List Particion) (pnew : Particion) (t : Int)
    (hnew : pnew.tamano < t) (h : ∀ Q ∈ parts, Q.tamano < t) :
    ∀ Q ∈ setParticion parts pnew, Q.tamano < t := by
  intro Q hQ
  obtain ⟨Q0, hQ0, hQe⟩ := List.mem_map.mp hQ
  by_cases hb : (Q0.id_particion == pnew.id_particion) = true
  · rw [if_pos hb] at hQe
    rw [← hQe]
    exact hnew
  · rw [if_neg hb] at hQe
    rw [← hQe]
    exact h Q0 hQ0

theorem gigante_paso (s : Sim) (c : Proceso) (s' : Sim) (p : Proceso)
    (hbig : ∀ Q ∈ s.particiones, Q.tamano < p.tamano)
    (h : intentarCandidato s c = some s') (hp : p ∈ s.ls) :
    p ∈ s'.ls ∧ ∀ Q ∈ s'.particiones, Q.tamano < p.tamano := by
  simp only [intentarCandidato] at h
  split at h
  · split at h
    · exact absurd h (by simp)
    · rename_i mejor hemp
      rw [Option.some_inj] at h
      subst h
      obtain ⟨hmem, hok, _⟩ := encontrarMejorParticion_spec c _ mejor hemp
      have hmem' : mejor ∈ s.particiones := (List.mem_filter.mp hmem).1
      have hlt : c.tamano < p.tamano := lt_of_le_of_lt hok.2 (hbig mejor hmem')
      have hne : p ≠ c := fun he => by rw [he] at hlt; omega
      refine ⟨(List.mem_erase_of_ne hne).mpr hp, ?_⟩
      exact caps_lt_setParticion _ _ _
        (by rw [asignarProceso_fst_tamano]; exact hbig mejor hmem') hbig
  · split at h
    · split at h
      · exact absurd h (by simp)
      · rename_i v0 vrest heqf
        split at h
        · split at h
          · exact absurd h (by simp)
          · rename_i partV hga
            rw [Option.some_inj] at h
            subst h
            have hmemP : partV ∈ s.particiones := List.mem_of_find?_eq_some hga
            have hfit : c.tamano ≤ partV.tamano := by
              obtain ⟨hm, _⟩ := maxVictima_spec vrest v0
              rw [← heqf] at hm
              have := (List.mem_filter.mp hm).2
              rw [hga] at this
              exact of_decide_eq_true this
            have hlt : c.tamano < p.tamano := lt_of_le_of_lt hfit (hbig partV hmemP)
            have hne : p ≠ c := fun he => by rw [he] at hlt; omega
            refine ⟨(List.mem_erase_of_ne hne).mpr (List.mem_append_left _ hp), ?_⟩
            exact caps_lt_setParticion _ _ _
              (by rw [asignarProceso_fst_tamano]; exact hbig partV hmemP) hbig
        · exact absurd h (by simp)
    · exact absurd h (by simp)

theorem gigante_admision :
    ∀ (fuel : Nat) (s : Sim) (p : Proceso),
      (∀ Q ∈ s.particiones, Q.tamano < p.tamano) → p ∈ s.ls →
      p ∈ (intentarAdmision fuel s).ls ∧
        ∀ Q ∈ (intentarAdmision fuel s).particiones, Q.tamano < p.tamano := by
  intro fuel
  induction fuel with
  | zero => intro s p hbig hp; exact ⟨hp, hbig⟩
  | succ m ih =>
    intro s p hbig hp
    simp only [intentarAdmision]
    have hp1 : p ∈ (sortLS s).ls := by
      simp only [sortLS]
      exact (mem_ordenar leLS s.ls p).mpr hp
    have hbig1 : ∀ Q ∈ (sortLS s).particiones, Q.tamano < p.tamano := hbig
    cases hb : buscarCambio (sortLS s) with
    | none => exact ⟨hp1, hbig1⟩
    | some s2 =>
      obtain ⟨c, _, hcs⟩ := List.exists_of_findSome?_eq_some hb
      obtain ⟨hp2, hbig2⟩ := gigante_paso (sortLS s) c s2 p hbig1 hcs hp1
      exact ih s2 p hbig2 hp2

theorem gigante_tick (s : Sim) (p : Proceso)
    (hbig : ∀ Q ∈ s.particiones, Q.tamano < p.tamano) (hp : p ∈ s.ls) :
    p ∈ (tickBody s).ls ∧ ∀ Q ∈ (tickBody s).particiones, Q.tamano < p.tamano := by
  unfold tickBody
  have h0ls : ({ s with eventos := [] } : Sim).ls = s.ls := rfl
  have h1ls := (cpuPhase_frame { s with eventos := [] }).2.1
  have h1caps : ∀ Q ∈ (cpuPhase { s with eventos := [] }).particiones,
      Q.tamano < p.tamano := by
    unfold cpuPhase
    cases ({ s with eventos := [] } : Sim).running with
    | none => exact hbig
    | some cur0 =>
      dsimp only
      split
      · exact caps_lt_liberarPorOpt _ _ _ hbig
      · exact hbig
  have hp2 : p ∈ (llegadas (cpuPhase { s with eventos := [] })).ls := by
    show p ∈ _ ++ _
    rw [h1ls]
    exact List.mem_append_left _ hp
  have h2caps : ∀ Q ∈ (llegadas (cpuPhase { s with eventos := [] })).particiones,
      Q.tamano < p.tamano := by
    rw [(llegadas_frame _).2.2.2.2]
    exact h1caps
  obtain ⟨hp3, h3caps⟩ := gigante_admision _ _ p h2caps hp2
  refine ⟨?_, ?_⟩
  · rw [(ejecutarPlanificador_frame _).2.1]
    exact hp3
  · rw [(ejecutarPlanificador_frame _).2.2.2.1]
    exact h3caps

theorem noCabe_of_caps (s : Sim) (p : Proceso)
    (hbig : ∀ Q ∈ s.particiones, Q.tamano < p.tamano) :
    cabeEnAlguna s.particiones p = false := by
  rw [cabeEnAlguna, List.any_eq_false]
  intro part hpart
  have := hbig part hpart
  simp only [Bool.and_eq_true, Bool.not_eq_true', decide_eq_true_eq, not_and]
  intro _
  omega

theorem fila_noAdmitido (s : Sim) (p : Proceso)
    (hp : p ∈ s.ls) (hestado : p.estado = EstadoProc.LS) (hfin : p.t_fin = -1)
    (hbig : ∀ Q ∈ s.particiones, Q.tamano < p.tamano) :
    FilaReporte.noAdmitido p.id_proceso p.t_arribo p.t_irrupcion p.tamano
      ∈ (getReporteFinal s).procesos := by
  have hmem : p ∈ procesosReporte s := by
    rw [procesosReporte, mem_ordenar]
    simp only [allProcs, List.mem_append]
    tauto
  have hcabe := noCabe_of_caps s p hbig
  refine List.mem_filterMap.mpr ⟨p, hmem, ?_⟩
  rw [if_neg (by omega), if_pos ⟨hestado, by rw [hcabe]; exact Bool.false_ne_true⟩]

/-- **C4, amended.** A process larger than every partition is never placed:
once in L/S it stays in L/S forever (the same value, never mutated), and the
final report lists it with the "No admitido" marker instead of metrics.  It
does not stop the admission controller from considering other Suspended
candidates (the candidate loop simply skips it), but — as
`gigante_bloquea_nuevos` shows — it *does* count against the
`SYSTEM_SLOT_LIMIT`, so it can block other processes from moving New →
Suspended, unlike what the original claim states. -/
theorem gigante_amended (procs : List Proceso) (p : Proceso) (n m : Nat)
    (hnm : n ≤ m)
    (hbig : ∀ Q ∈ (run procs n).particiones, Q.tamano < p.tamano)
    (hp : p ∈ (run procs n).ls)
    (hestado : p.estado = EstadoProc.LS) (hfin : p.t_fin = -1) :
    p ∈ (run procs m).ls ∧
    FilaReporte.noAdmitido p.id_proceso p.t_arribo p.t_irrupcion p.tamano
      ∈ (getReporteFinal (run procs m)).procesos := by
  have hmain : p ∈ (run procs m).ls ∧
      ∀ Q ∈ (run procs m).particiones, Q.tamano < p.tamano := by
    induction m, hnm using Nat.le_induction with
    | base => exact ⟨hp, hbig⟩
    | succ k _ ih =>
      obtain ⟨ih1, ih2⟩ := ih
      exact gigante_tick { run procs k with reloj := (run procs k).reloj + 1 } p ih2 ih1
  exact ⟨hmain.1, fila_noAdmitido _ p hmain.1 hestado hfin hmain.2⟩

/-- **C4, counterexample.** The oversized process is *not* transparent to
other admissions: with the 300 KB process holding a system slot from `t = 0`,
only four of the five `t_arribo = 1` processes are admitted at tick 1 and
`P6` stays in New, while in the identical cohort without the oversized
process all five are admitted. -/
theorem gigante_bloquea_nuevos :
    (run cohorteConGigante 1).nuevos.map (fun p => p.id_proceso) = [6] ∧
    (run cohorteSinGigante 1).nuevos = [] := by
  decide

/-- Witness for `gigante_amended`: the 300 KB process of
`cohorteConGigante` is still in L/S two ticks in, and the report carries its
"No admitido" row. -/
theorem gigante_amended_witness :
    gigante ∈ (run cohorteConGigante 2).ls ∧
    FilaReporte.noAdmitido 1 0 5 300
      ∈ (getReporteFinal (run cohorteConGigante 2)).procesos := by
  have h := gigante_amended cohorteConGigante gigante 0 2 (by omega)
    (by decide) (by decide) (by decide) (by decide)
  exact h

/-- Witness for `seleccion_cohorte`: the ready `P1` value after construction
carries the identity of the supplied definition `P1(120, 0, 5)`. -/
theorem seleccion_cohorte_witness :
    ident p1Tick1 ∈ (cohortOf cohorteEscenario).map ident := by
  have h := (seleccion_cohorte cohorteEscenario).2.2.2.2.2.2
  exact h 0 p1Tick1 (by decide)

/-! ### C10: the final report is total -/

theorem asignarProceso_t_fin (part : Particion) (pr : Proceso) :
    (asignarProceso part pr).2.t_fin = pr.t_fin := by
  unfold asignarProceso; split <;> rfl

theorem tfin_cpuPhase (s : Sim) (h : ∀ q ∈ vivos s, q.t_fin = -1) :
    ∀ p ∈ vivos (cpuPhase s), p.t_fin = -1 := by
  unfold cpuPhase
  cases hrun : s.running with
  | none => exact h
  | some cur0 =>
    dsimp only
    split
    · intro p hp
      simp only [vivos, List.mem_append, Option.toList_none, List.not_mem_nil,
        or_false] at hp
      refine h p ?_
      simp only [vivos, List.mem_append, hrun]
      tauto
    · intro p hp
      simp only [vivos, List.mem_append, Option.toList_some, List.mem_singleton] at hp
      rcases hp with ((h1 | h2) | h3) | h4
      · exact h p (by simp only [vivos, List.mem_append]; tauto)
      · exact h p (by simp only [vivos, List.mem_append]; tauto)
      · exact h p (by simp only [vivos, List.mem_append]; tauto)
      · have hcur := h cur0 (by
          simp only [vivos, List.mem_append, hrun, Option.toList_some, List.mem_singleton]
          tauto)
        rw [h4]
        exact hcur

theorem tfin_llegadas (s : Sim) (h : ∀ q ∈ vivos s, q.t_fin = -1) :
    ∀ p ∈ vivos (llegadas s), p.t_fin = -1 := by
  have h1 := tomaIguales_append s.reloj s.nuevos (countSys s)
  have h2 := tomaMenores_append s.reloj (tomaIguales s.reloj s.nuevos (countSys s)).1
    (tomaIguales s.reloj s.nuevos (countSys s)).2.1
  have hnu : ∀ q, q ∈ (tomaIguales s.reloj s.nuevos (countSys s)).2.2 ∨
      q ∈ (tomaMenores s.reloj (tomaIguales s.reloj s.nuevos (countSys s)).1
        (tomaIguales s.reloj s.nuevos (countSys s)).2.1).2.2 ∨
      q ∈ (tomaMenores s.reloj (tomaIguales s.reloj s.nuevos (countSys s)).1
        (tomaIguales s.reloj s.nuevos (countSys s)).2.1).1 →
      q ∈ s.nuevos := by
    intro q hq
    rw [← h1]
    rcases hq with ha | hb | hc
    · exact List.mem_append_left _ ha
    · refine List.mem_append_right _ ?_
      rw [← h2]
      exact List.mem_append_left _ hb
    · refine List.mem_append_right _ ?_
      rw [← h2]
      exact List.mem_append_right _ hc
  intro p hp
  simp only [llegadas, vivos, List.mem_append, List.mem_map] at hp
  rcases hp with ((hn | hl) | hli) | hr
  · exact h p (by
      simp only [vivos, List.mem_append]
      exact Or.inl (Or.inl (Or.inl (hnu p (Or.inr (Or.inr hn))))))
  · rcases hl with hl0 | ⟨q, hq, rfl⟩
    · exact h p (by simp only [vivos, List.mem_append]; tauto)
    · show q.t_fin = -1
      rcases hq with hq1 | hq2
      · exact h q (by
          simp only [vivos, List.mem_append]
          exact Or.inl (Or.inl (Or.inl (hnu q (Or.inl hq1)))))
      · exact h q (by
          simp only [vivos, List.mem_append]
          exact Or.inl (Or.inl (Or.inl (hnu q (Or.inr (Or.inl hq2))))))
  · exact h p (by simp only [vivos, List.mem_append]; tauto)
  · exact h p (by simp only [vivos, List.mem_append]; tauto)

theorem tfin_intentarCandidato (s : Sim) (c : Proceso) (s' : Sim)
    (hc : c ∈ s.ls) (h : intentarCandidato s c = some s')
    (hv : ∀ q ∈ vivos s, q.t_fin = -1) :
    ∀ p ∈ vivos s', p.t_fin = -1 := by
  simp only [intentarCandidato] at h
  split at h
  · split at h
    · exact absurd h (by simp)
    · rename_i mejor hemp
      rw [Option.some_inj] at h
      subst h
      intro p hp
      simp only [vivos, List.mem_append, Option.toList_some, List.mem_singleton] at hp
      rcases hp with ((h1 | h2) | h3) | h4
      · exact hv p (by simp only [vivos, List.mem_append]; tauto)
      · have := List.mem_of_mem_erase h2
        exact hv p (by simp only [vivos, List.mem_append]; tauto)
      · rcases h3 with h3 | h3
        · exact hv p (by simp only [vivos, List.mem_append]; tauto)
        · rw [h3]
          show (asignarProceso mejor c).2.t_fin = -1
          rw [asignarProceso_t_fin]
          exact hv c (by simp only [vivos, List.mem_append]; tauto)
      · exact hv p (by simp only [vivos, List.mem_append]; tauto)
  · split at h
    · split at h
      · exact absurd h (by simp)
      · rename_i v0 vrest heqf
        split at h
        · split at h
          · exact absurd h (by simp)
          · rename_i partV hga
            rw [Option.some_inj] at h
            subst h
            have hvict : (maxVictima v0 vrest) ∈ s.listos ++ s.running.toList := by
              obtain ⟨hm, _⟩ := maxVictima_spec vrest v0
              rw [← heqf] at hm
              exact (List.mem_filter.mp hm).1
            have hvictfin : (maxVictima v0 vrest).t_fin = -1 := by
              rcases List.mem_append.mp hvict with h1 | h1
              · exact hv _ (by simp only [vivos, List.mem_append]; tauto)
              · exact hv _ (by simp only [vivos, List.mem_append]; tauto)
            intro p hp
            simp only [vivos, List.mem_append] at hp
            rcases hp with ((h1 | h2) | h3) | h4
            · exact hv p (by simp only [vivos, List.mem_append]; tauto)
            · have h2' := List.mem_of_mem_erase h2
              rcases List.mem_append.mp h2' with h5 | h5
              · exact hv p (by simp only [vivos, List.mem_append]; tauto)
              · rw [List.mem_singleton] at h5
                rw [h5]
                exact hvictfin
            · rcases h3 with h5 | h5
              · by_cases hvr : (s.running == some (maxVictima v0 vrest)) = true
                · rw [if_pos hvr] at h5
                  exact hv p (by simp only [vivos, List.mem_append]; tauto)
                · rw [if_neg hvr] at h5
                  have := List.mem_of_mem_erase h5
                  exact hv p (by simp only [vivos, List.mem_append]; tauto)
              · rw [List.mem_singleton] at h5
                rw [h5]
                show (asignarProceso _ c).2.t_fin = -1
                rw [asignarProceso_t_fin]
                exact hv c (by simp only [vivos, List.mem_append]; tauto)
            · by_cases hvr : (s.running == some (maxVictima v0 vrest)) = true
              · rw [if_pos hvr] at h4
                simp at h4
              · rw [if_neg hvr] at h4
                exact hv p (by simp only [vivos, List.mem_append]; tauto)
        · exact absurd h (by simp)
    · exact absurd h (by simp)

theorem tfin_intentarAdmision :
    ∀ (fuel : Nat) (s : Sim), (∀ q ∈ vivos s, q.t_fin = -1) →
      ∀ p ∈ vivos (intentarAdmision fuel s), p.t_fin = -1 := by
  intro fuel
  induction fuel with
  | zero => intro s hv; exact hv
  | succ m ih =>
    intro s hv
    have hv1 : ∀ q ∈ vivos (sortLS s), q.t_fin = -1 := by
      intro q hq
      simp only [vivos, sortLS, List.mem_append, mem_ordenar] at hq
      exact hv q (by simp only [vivos, List.mem_append]; tauto)
    simp only [intentarAdmision]
    cases hb : buscarCambio (sortLS s) with
    | none => exact hv1
    | some s2 =>
      obtain ⟨c, hcmem, hcs⟩ := List.exists_of_findSome?_eq_some hb
      exact ih s2 (tfin_intentarCandidato (sortLS s) c s2 hcmem hcs hv1)

theorem tfin_ejecutarPlanificador (s : Sim) (hv : ∀ q ∈ vivos s, q.t_fin = -1) :
    ∀ p ∈ vivos (ejecutarPlanificador s), p.t_fin = -1 := by
  unfold ejecutarPlanificador
  split
  · exact hv
  · rename_i a L hcons
    cases hrun : s.running with
    | none =>
      simp only [hrun]
      cases hq : ordenar leListo s.listos with
      | nil =>
        exfalso
        have hlen := (perm_ordenar leListo s.listos).length_eq
        rw [hq, hcons] at hlen
        simp at hlen
      | cons c rest =>
        dsimp only
        have hsub : ∀ x, x ∈ c :: rest → x ∈ s.listos := by
          intro x hx
          rw [← hq] at hx
          exact (mem_ordenar leListo s.listos x).mp hx
        intro p hp
        simp only [vivos, List.mem_append, Option.toList_some, List.mem_singleton] at hp
        rcases hp with ((h1 | h2) | h3) | h4
        · exact hv p (by simp only [vivos, List.mem_append]; tauto)
        · exact hv p (by simp only [vivos, List.mem_append]; tauto)
        · have := hsub p (List.mem_cons_of_mem _ h3)
          exact hv p (by simp only [vivos, List.mem_append]; tauto)
        · rw [h4]
          show c.t_fin = -1
          have := hsub c (List.mem_cons_self _ _)
          exact hv c (by simp only [vivos, List.mem_append]; tauto)
    | some run =>
      simp only [hrun]
      have hrunfin : run.t_fin = -1 := by
        refine hv run ?_
        simp only [vivos, List.mem_append, hrun, Option.toList_some, List.mem_singleton]
        tauto
      cases hq : ordenar leListo s.listos with
      | nil =>
        exfalso
        have hlen := (perm_ordenar leListo s.listos).length_eq
        rw [hq, hcons] at hlen
        simp at hlen
      | cons c rest0 =>
        dsimp only
        have hsub : ∀ x, x ∈ c :: rest0 → x ∈ s.listos := by
          intro x hx
          rw [← hq] at hx
          exact (mem_ordenar leListo s.listos x).mp hx
        split
        · split
          · rename_i hq2
            exfalso
            have hlen := (perm_ordenar leListo
              (c :: rest0 ++
                [{ run with estado := EstadoProc.LISTO, t_llegada_listo := s.reloj }])).length_eq
            rw [hq2] at hlen
            simp at hlen
          · rename_i ent rest hq2
            have hsub2 : ∀ x, x ∈ ent :: rest → x ∈ c :: rest0 ++
                [{ run with estado := EstadoProc.LISTO, t_llegada_listo := s.reloj }] := by
              intro x hx
              rw [← hq2] at hx
              exact (mem_ordenar leListo _ x).mp hx
            have hfin2 : ∀ x, x ∈ ent :: rest → x.t_fin = -1 := by
              intro x hx
              have hx2 := hsub2 x hx
              rcases List.mem_cons.mp hx2 with rfl | h5
              · have := hsub x (List.mem_cons_self _ _)
                exact hv x (by simp only [vivos, List.mem_append]; tauto)
              · rcases List.mem_append.mp h5 with h6 | h6
                · have := hsub x (List.mem_cons_of_mem _ h6)
                  exact hv x (by simp only [vivos, List.mem_append]; tauto)
                · rw [List.mem_singleton] at h6
                  rw [h6]
                  exact hrunfin
            intro p hp
            simp only [vivos, List.mem_append, Option.toList_some,
              List.mem_singleton] at hp
            rcases hp with ((h1 | h2) | h3) | h4
            · exact hv p (by simp only [vivos, List.mem_append]; tauto)
            · exact hv p (by simp only [vivos, List.mem_append]; tauto)
            · exact hfin2 p (List.mem_cons_of_mem _ h3)
            · rw [h4]
              show ent.t_fin = -1
              exact hfin2 ent (List.mem_cons_self _ _)
        · intro p hp
          simp only [vivos, List.mem_append, Option.toList_some, List.mem_singleton] at hp
          rcases hp with ((h1 | h2) | h3) | h4
          · exact hv p (by simp only [vivos, List.mem_append]; tauto)
          · exact hv p (by simp only [vivos, List.mem_append]; tauto)
          · have := hsub p h3
            exact hv p (by simp only [vivos, List.mem_append]; tauto)
          · rw [h4]
            exact hrunfin

theorem tfin_guardarEstadoInicial (s : Sim) (hv : ∀ q ∈ vivos s, q.t_fin = -1) :
    ∀ p ∈ vivos (guardarEstadoInicial s), p.t_fin = -1 := by
  unfold guardarEstadoInicial
  refine tfin_ejecutarPlanificador _ (tfin_intentarAdmision _ _ ?_)
  intro p hp
  simp only [vivos, List.mem_append, List.mem_map] at hp
  rcases hp with ((h1 | h2) | h3) | h4
  · have : p ∈ s.nuevos := (List.dropWhile_sublist _).subset h1
    exact hv p (by simp only [vivos, List.mem_append]; tauto)
  · rcases h2 with h2 | ⟨q, hq, rfl⟩
    · exact hv p (by simp only [vivos, List.mem_append]; tauto)
    · show q.t_fin = -1
      have : q ∈ s.nuevos := (List.takeWhile_sublist _).subset hq
      exact hv q (by simp only [vivos, List.mem_append]; tauto)
  · exact hv p (by simp only [vivos, List.mem_append]; tauto)
  · exact hv p (by simp only [vivos, List.mem_append]; tauto)

/-- In every reachable state, a process that has not been archived as
terminated still carries the unset sentinel `t_fin = -1`. -/
theorem tfin_run (procs : List Proceso) :
    ∀ n : Nat, ∀ p ∈ vivos (run procs n), p.t_fin = -1 := by
  intro n
  induction n with
  | zero =>
    refine tfin_guardarEstadoInicial _ ?_
    intro p hp
    simp only [vivos, List.mem_append, Option.toList_none, List.not_mem_nil, or_false,
      cohortOf, List.mem_map] at hp
    obtain ⟨q, _, rfl⟩ := hp
    rfl
  | succ m ih =>
    show ∀ p ∈ vivos (tickBody _), p.t_fin = -1
    unfold tickBody
    refine tfin_ejecutarPlanificador _ (tfin_intentarAdmision _ _
      (tfin_llegadas _ (tfin_cpuPhase _ ?_)))
    intro q hq
    exact ih q hq

/-- **C10.** `get_reporte_final` is total at every reachable state: with zero
ticks elapsed the throughput is the literal "0.000" (no division, modelled as
`none`); with no terminated process the averages dict is empty (`none`,
no division); and every metrics row comes from a process whose `t_fin` has
been set, with `T = fin - arribo`, `W = T - servicio`,
`R = primera - arribo`. -/
theorem reporte_total (procs : List Proceso) (n : Nat) :
    (n = 0 → (getReporteFinal (run procs n)).throughput = none) ∧
    ((run procs n).terminados = [] → (getReporteFinal (run procs n)).promedios = none) ∧
    (∀ fila ∈ (getReporteFinal (run procs n)).procesos, fila.esMetricas = true →
       ∃ p, p ∈ procesosReporte (run procs n) ∧ p.t_fin ≠ -1 ∧
         fila = FilaReporte.metricas p.id_proceso p.t_arribo p.t_primera_ejecucion p.t_fin
           p.t_irrupcion (p.t_fin - p.t_arribo - p.t_irrupcion)
           (p.t_primera_ejecucion - p.t_arribo) (p.t_fin - p.t_arribo)) := by
  refine ⟨?_, ?_, ?_⟩
  · intro hn
    subst hn
    have hreloj := reloj_run procs 0
    simp only [getReporteFinal]
    rw [if_neg (by rw [hreloj]; omega)]
  · intro hterm
    have hfil : (procesosReporte (run procs n)).filter
        (fun p => decide (p.t_fin ≠ -1)) = [] := by
      rw [List.filter_eq_nil_iff]
      intro p hp
      have hpall : p ∈ allProcs (run procs n) :=
        (mem_ordenar leId _ p).mp hp
      have hpviv : p ∈ vivos (run procs n) := by
        simp only [allProcs, hterm, List.append_nil, List.mem_append] at hpall
        simp only [vivos, List.mem_append]
        tauto
      have := tfin_run procs n p hpviv
      simp [this]
    simp only [getReporteFinal]
    rw [if_pos (by rw [hfil]; rfl)]
  · intro fila hfila hmet
    simp only [getReporteFinal] at hfila
    obtain ⟨p, hp, hf⟩ := List.mem_filterMap.mp hfila
    by_cases h1 : p.t_fin ≠ -1
    · rw [if_pos h1, Option.some_inj] at hf
      exact ⟨p, hp, h1, hf.symm⟩
    · rw [if_neg h1] at hf
      by_cases h2 : p.estado = EstadoProc.LS ∧ ¬cabeEnAlguna (run procs n).particiones p
      · rw [if_pos h2, Option.some_inj] at hf
        rw [← hf] at hmet
        exact absurd hmet (by simp [FilaReporte.esMetricas])
      · rw [if_neg h2] at hf
        exact absurd hf (by simp)

/-- Witness for `reporte_total`: at `t = 0` of the §8 scenario, throughput
"0.000" and empty averages; at `t = 4` the single metrics row belongs to the
finished `P2` (`fin = 4`). -/
theorem reporte_total_witness :
    (getReporteFinal (run cohorteEscenario 0)).throughput = none ∧
    (getReporteFinal (run cohorteEscenario 0)).promedios = none ∧
    (∃ p, p ∈ procesosReporte (run cohorteEscenario 4) ∧ p.t_fin ≠ -1 ∧
       FilaReporte.metricas 2 0 0 4 3 1 0 4
         = FilaReporte.metricas p.id_proceso p.t_arribo p.t_primera_ejecucion p.t_fin
             p.t_irrupcion (p.t_fin - p.t_arribo - p.t_irrupcion)
             (p.t_primera_ejecucion - p.t_arribo) (p.t_fin - p.t_arribo)) := by
  refine ⟨(reporte_total cohorteEscenario 0).1 rfl,
    (reporte_total cohorteEscenario 0).2.1 (by decide), ?_⟩
  exact (reporte_total cohorteEscenario 4).2.2 (FilaReporte.metricas 2 0 0 4 3 1 0 4)
    (by decide) (by decide)

/-! ### C3: arrival admission, GDM 5 -/

theorem tomaIguales_no_atrasados (reloj : Int) :
    ∀ (l : List Proceso) (g : Nat), (∀ p ∈ l, reloj ≤ p.t_arribo) →
      tomaIguales reloj l g =
        (l.drop (min (l.takeWhile (fun p => decide (p.t_arribo ≤ reloj))).length (5 - g)),
         g + min (l.takeWhile (fun p => decide (p.t_arribo ≤ reloj))).length (5 - g),
         l.take (min (l.takeWhile (fun p => decide (p.t_arribo ≤ reloj))).length (5 - g))) := by
  intro l
  induction l with
  | nil => intro g _; simp [tomaIguales]
  | cons p r ih =>
    intro g hall
    by_cases hc : p.t_arribo = reloj ∧ g < 5
    · have hple : decide (p.t_arribo ≤ reloj) = true := by
        rw [decide_eq_true_eq]; omega
      have htw : (p :: r).takeWhile (fun q => decide (q.t_arribo ≤ reloj))
          = p :: r.takeWhile (fun q => decide (q.t_arribo ≤ reloj)) := by
        rw [List.takeWhile_cons, if_pos hple]
      have hrec := ih (g + 1) (fun q hq => hall q (List.mem_cons_of_mem _ hq))
      set b := (r.takeWhile (fun q => decide (q.t_arribo ≤ reloj))).length with hb
      have hmin : min ((p :: r).takeWhile (fun q => decide (q.t_arribo ≤ reloj))).length
          (5 - g) = min b (5 - (g + 1)) + 1 := by
        rw [htw]
        simp only [List.length_cons, ← hb]
        omega
      simp only [tomaIguales, if_pos hc, hrec, hmin]
      rw [List.drop_succ_cons, List.take_succ_cons]
      simp only [Prod.mk.injEq, true_and, and_true]
      omega
    · simp only [tomaIguales, if_neg hc]
      have hz : min ((p :: r).takeWhile (fun q => decide (q.t_arribo ≤ reloj))).length
          (5 - g) = 0 := by
        by_cases hg : g < 5
        · have harr : p.t_arribo ≠ reloj := fun he => hc ⟨he, hg⟩
          have : reloj ≤ p.t_arribo := hall p (List.mem_cons_self _ _)
          have hple : decide (p.t_arribo ≤ reloj) = false := by
            rw [decide_eq_false_iff_not]; omega
          rw [List.takeWhile_cons, if_neg (by rw [hple]; exact Bool.false_ne_true)]
          simp
        · omega
      rw [hz]
      simp

theorem tomaMenores_no_atrasados (reloj : Int) (l : List Proceso) (g : Nat)
    (hall : ∀ p ∈ l, reloj ≤ p.t_arribo) :
    tomaMenores reloj l g = (l, g, []) := by
  cases l with
  | nil => simp [tomaMenores]
  | cons p r =>
    have := hall p (List.mem_cons_self _ _)
    rw [tomaMenores, if_neg (by omega)]

theorem tomaMenores_lleno (reloj : Int) (l : List Proceso) (g : Nat) (hg : 5 ≤ g) :
    tomaMenores reloj l g = (l, g, []) := by
  cases l with
  | nil => simp [tomaMenores]
  | cons p r => rw [tomaMenores, if_neg (by omega)]

theorem tomaIguales_atrasado (reloj : Int) (p : Proceso) (r : List Proceso) (g : Nat)
    (hp : p.t_arribo < reloj) :
    tomaIguales reloj (p :: r) g = (p :: r, g, []) := by
  rw [tomaIguales, if_neg (by omega)]

/-- Characterisation of the arrival phase: writing `due` for the leading
segment of NUEVO that has already arrived and `hueco = 5 - GDM`, exactly
`min |due| hueco` processes — the first ones in `(arrival, id)` order — move
into L/S; the rest of NUEVO is left untouched, to be retried next tick.
Hypothesis `hJ` (late arrivals only pile up when the system was full, so at
least 4 slots are taken) holds in every reachable state. -/
theorem llegadas_spec (s : Sim)
    (hsort : List.Pairwise (fun x y => leArr x y = true) s.nuevos)
    (hJ : (∃ p ∈ s.nuevos, p.t_arribo < s.reloj) → 4 ≤ countSys s) :
    (llegadas s).nuevos = s.nuevos.drop
        (min (s.nuevos.takeWhile (fun p => decide (p.t_arribo ≤ s.reloj))).length
          (5 - countSys s)) ∧
    (llegadas s).ls = s.ls ++
        ((s.nuevos.take
            (min (s.nuevos.takeWhile (fun p => decide (p.t_arribo ≤ s.reloj))).length
              (5 - countSys s))).map (fun p => { p with estado := EstadoProc.LS })) := by
  by_cases hover : ∃ p ∈ s.nuevos, p.t_arribo < s.reloj
  · obtain ⟨q, hq, hqlt⟩ := hover
    have hge4 : 4 ≤ countSys s := hJ ⟨q, hq, hqlt⟩
    cases hnu : s.nuevos with
    | nil => rw [hnu] at hq; exact absurd hq (List.not_mem_nil q)
    | cons p0 r =>
      have hp0 : p0.t_arribo < s.reloj := by
        rw [hnu] at hq hsort
        rcases List.mem_cons.mp hq with rfl | hq'
        · exact hqlt
        · have := (List.pairwise_cons.mp hsort).1 q hq'
          simp only [leArr, decide_eq_true_eq] at this
          omega
      have htw : (p0 :: r).takeWhile (fun p => decide (p.t_arribo ≤ s.reloj))
          = p0 :: r.takeWhile (fun p => decide (p.t_arribo ≤ s.reloj)) := by
        rw [List.takeWhile_cons, if_pos (by rw [decide_eq_true_eq]; omega)]
      by_cases hfull : 5 ≤ countSys s
      · have hmin0 : min ((p0 :: r).takeWhile
            (fun p => decide (p.t_arribo ≤ s.reloj))).length (5 - countSys s) = 0 := by
          omega
        simp only [llegadas, hnu, hmin0, List.drop_zero, List.take_zero, List.map_nil,
          List.append_nil]
        rw [tomaIguales_atrasado _ _ _ _ hp0]
        rw [tomaMenores_lleno _ _ _ hfull]
        exact ⟨rfl, by simp⟩
      · have hg4 : countSys s = 4 := by omega
        have hmin1 : min ((p0 :: r).takeWhile
            (fun p => decide (p.t_arribo ≤ s.reloj))).length (5 - countSys s) = 1 := by
          rw [htw]
          simp only [List.length_cons]
          omega
        simp only [llegadas, hnu, hmin1]
        rw [tomaIguales_atrasado _ _ _ _ hp0]
        have hm : tomaMenores s.reloj (p0 :: r) (countSys s) = (r, countSys s + 1, [p0]) := by
          rw [tomaMenores, if_pos ⟨hp0, by omega⟩, tomaMenores_lleno _ _ _ (by omega)]
        rw [hm]
        constructor
        · rfl
        · rfl
  · have hall : ∀ p ∈ s.nuevos, s.reloj ≤ p.t_arribo := by
      intro p hp
      by_contra hlt
      exact hover ⟨p, hp, by omega⟩
    simp only [llegadas]
    rw [tomaIguales_no_atrasados _ _ _ hall]
    rw [show (List.drop (min (s.nuevos.takeWhile
        (fun p => decide (p.t_arribo ≤ s.reloj))).length (5 - countSys s)) s.nuevos,
        countSys s + min (s.nuevos.takeWhile
          (fun p => decide (p.t_arribo ≤ s.reloj))).length (5 - countSys s),
        List.take (min (s.nuevos.takeWhile
          (fun p => decide (p.t_arribo ≤ s.reloj))).length (5 - countSys s)) s.nuevos).1
      = List.drop (min (s.nuevos.takeWhile
          (fun p => decide (p.t_arribo ≤ s.reloj))).length (5 - countSys s)) s.nuevos
      from rfl]
    rw [tomaMenores_no_atrasados _ _ _
      (fun p hp => hall p (List.drop_subset _ _ hp))]
    exact ⟨rfl, by simp⟩

theorem countSys_intentarCandidato (s : Sim) (c : Proceso) (s' : Sim)
    (hc : c ∈ s.ls) (h : intentarCandidato s c = some s') :
    countSys s' = countSys s := by
  simp only [intentarCandidato] at h
  split at h
  · split at h
    · exact absurd h (by simp)
    · rw [Option.some_inj] at h
      subst h
      simp only [countSys, List.length_append, List.length_cons, List.length_nil]
      rw [List.length_erase_of_mem hc]
      have h1 : 1 ≤ s.ls.length := List.length_pos.mpr (List.ne_nil_of_mem hc)
      omega
  · split at h
    · split at h
      · exact absurd h (by simp)
      · rename_i v0 vrest heqf
        split at h
        · split at h
          · exact absurd h (by simp)
          · rename_i partV hga
            rw [Option.some_inj] at h
            subst h
            have hvm : maxVictima v0 vrest ∈ s.listos ++ s.running.toList := by
              obtain ⟨hm, _⟩ := maxVictima_spec vrest v0
              rw [← heqf] at hm
              exact (List.mem_filter.mp hm).1
            have hcls : c ∈ s.ls ++ [{ maxVictima v0 vrest with
                estado := EstadoProc.LS, id_particion := none }] :=
              List.mem_append_left _ hc
            have h1 : 1 ≤ s.ls.length := List.length_pos.mpr (List.ne_nil_of_mem hc)
            by_cases hvr : (s.running == some (maxVictima v0 vrest)) = true
            · have hrun : s.running = some (maxVictima v0 vrest) := by simpa using hvr
              simp only [countSys, if_pos hvr]
              rw [List.length_erase_of_mem hcls]
              simp only [hrun, Option.isSome_some, Option.isSome_none, List.length_append,
                List.length_cons, List.length_nil, if_true, Bool.false_eq_true, if_false]
              omega
            · have hvlist : maxVictima v0 vrest ∈ s.listos := by
                rcases List.mem_append.mp hvm with hx | hx
                · exact hx
                · exfalso
                  cases hrs : s.running with
                  | none => rw [hrs] at hx; simp at hx
                  | some rp =>
                    rw [hrs] at hx
                    simp only [Option.toList_some, List.mem_singleton] at hx
                    rw [hrs, hx] at hvr
                    simp at hvr
              have h2 : 1 ≤ s.listos.length := List.length_pos.mpr (List.ne_nil_of_mem hvlist)
              simp only [countSys, if_neg hvr]
              rw [List.length_erase_of_mem hcls]
              simp only [List.length_append, List.length_cons, List.length_nil]
              rw [List.length_erase_of_mem hvlist]
              omega
        · exact absurd h (by simp)
    · exact absurd h (by simp)

theorem countSys_intentarAdmision :
    ∀ (fuel : Nat) (s : Sim), countSys (intentarAdmision fuel s) = countSys s := by
  intro fuel
  induction fuel with
  | zero => intro s; rfl
  | succ m ih =>
    intro s
    have hsort : countSys (sortLS s) = countSys s := by
      simp [countSys, sortLS, length_ordenar]
    simp only [intentarAdmision]
    cases hb : buscarCambio (sortLS s) with
    | none => exact hsort
    | some s2 =>
      obtain ⟨c, hcmem, hcs⟩ := List.exists_of_findSome?_eq_some hb
      rw [ih s2, countSys_intentarCandidato (sortLS s) c s2 hcmem hcs, hsort]

theorem countSys_ejecutarPlanificador (s : Sim) :
    countSys (ejecutarPlanificador s) = countSys s := by
  unfold ejecutarPlanificador
  split
  · rfl
  · rename_i a L hcons
    cases hrun : s.running with
    | none =>
      simp only [hrun]
      cases hq : ordenar leListo s.listos with
      | nil =>
        exfalso
        have hlen := (perm_ordenar leListo s.listos).length_eq
        rw [hq, hcons] at hlen
        simp at hlen
      | cons c rest =>
        dsimp only
        have hlen := (perm_ordenar leListo s.listos).length_eq
        rw [hq] at hlen
        simp only [countSys, hrun, Option.isSome_some, Option.isSome_none,
          List.length_cons, eq_self_iff_true, if_true, Bool.false_eq_true, if_false] at hlen ⊢
        omega
    | some run =>
      simp only [hrun]
      cases hq : ordenar leListo s.listos with
      | nil =>
        exfalso
        have hlen := (perm_ordenar leListo s.listos).length_eq
        rw [hq, hcons] at hlen
        simp at hlen
      | cons c rest0 =>
        dsimp only
        have hlen := (perm_ordenar leListo s.listos).length_eq
        rw [hq] at hlen
        split
        · split
          · rename_i hq2
            exfalso
            have hlen2 := (perm_ordenar leListo
              (c :: rest0 ++
                [{ run with estado := EstadoProc.LISTO, t_llegada_listo := s.reloj }])).length_eq
            rw [hq2] at hlen2
            simp at hlen2
          · rename_i ent rest hq2
            have hlen2 := (perm_ordenar leListo
              (c :: rest0 ++
                [{ run with estado := EstadoProc.LISTO, t_llegada_listo := s.reloj }])).length_eq
            rw [hq2] at hlen2
            simp only [List.length_cons, List.length_append, List.length_nil] at hlen2 hlen
            simp only [countSys, hrun, Option.isSome_some, List.length_cons,
              eq_self_iff_true, if_true]
            omega
        · simp only [countSys, hrun, Option.isSome_some, eq_self_iff_true, if_true]
          simp only [List.length_cons] at hlen ⊢
          omega

theorem countSys_cpuPhase_ge (s : Sim) :
    countSys s - 1 ≤ countSys (cpuPhase s) := by
  unfold cpuPhase
  cases hrun : s.running with
  | none => dsimp only; omega
  | some cur0 =>
    dsimp only
    split
    · simp only [countSys, hrun, Option.isSome_some, Option.isSome_none,
        eq_self_iff_true, if_true, Bool.false_eq_true, if_false]
      omega
    · simp only [countSys, hrun, Option.isSome_some, eq_self_iff_true, if_true]
      omega

/-- In a `(t_arribo, id)`-sorted list, everything past the already-arrived
prefix has a strictly future arrival time. -/
theorem atrasados_drop (reloj : Int) :
    ∀ (l : List Proceso),
      List.Pairwise (fun x y => leArr x y = true) l →
      ∀ p ∈ l.dropWhile (fun q => decide (q.t_arribo ≤ reloj)), reloj < p.t_arribo := by
  intro l
  induction l with
  | nil => intro _ p hp; simp [List.dropWhile] at hp
  | cons q r ih =>
    intro hsort p hp
    rw [List.dropWhile_cons] at hp
    by_cases hq : decide (q.t_arribo ≤ reloj) = true
    · rw [if_pos hq] at hp
      exact ih (List.pairwise_cons.mp hsort).2 p hp
    · rw [if_neg hq] at hp
      simp only [decide_eq_true_eq] at hq
      rcases List.mem_cons.mp hp with rfl | hp'
      · omega
      · have hle := (List.pairwise_cons.mp hsort).1 p hp'
        simp only [leArr, decide_eq_true_eq] at hle
        omega

/-- In a sorted cohort with nonnegative arrival times, everything past the
`t_arribo == 0` prefix arrives strictly after time 0. -/
theorem nuevos0_pos :
    ∀ (l : List Proceso), List.Pairwise (fun x y => leArr x y = true) l →
      (∀ p ∈ l, 0 ≤ p.t_arribo) →
      ∀ p ∈ l.dropWhile (fun q => q.t_arribo == 0), 0 < p.t_arribo := by
  intro l
  induction l with
  | nil => intro _ _ p hp; simp [List.dropWhile] at hp
  | cons q r ih =>
    intro hsort hpos p hp
    rw [List.dropWhile_cons] at hp
    by_cases hq : (q.t_arribo == 0) = true
    · rw [if_pos hq] at hp
      exact ih (List.pairwise_cons.mp hsort).2
        (fun x hx => hpos x (List.mem_cons_of_mem _ hx)) p hp
    · rw [if_neg hq] at hp
      have hq' : ¬ q.t_arribo = 0 := by simpa using hq
      have hq0 : 0 ≤ q.t_arribo := hpos q (List.mem_cons_self _ _)
      rcases List.mem_cons.mp hp with rfl | hp'
      · omega
      · have hle := (List.pairwise_cons.mp hsort).1 p hp'
        simp only [leArr, decide_eq_true_eq] at hle
        omega

/-- The cohort built by `_preparar_colas` is `(t_arribo, id)`-sorted. -/
theorem pairwise_cohortOf (procs : List Proceso) :
    List.Pairwise (fun x y => leArr x y = true) (cohortOf procs) := by
  unfold cohortOf
  apply List.pairwise_map.mpr
  have h2 : List.Pairwise (fun x y => leArr x y = true) ((ordenar leArr procs).take 10) :=
    (pairwise_ordenar leArr leArr_total leArr_trans procs).sublist (List.take_sublist _ _)
  refine h2.imp ?_
  intro a b hab
  simpa [leArr, resetProc] using hab

/-- Cohort members inherit nonnegative arrival times from the input. -/
theorem cohortOf_arribo_pos (procs : List Proceso)
    (harr : ∀ p ∈ procs, 0 ≤ p.t_arribo) :
    ∀ p ∈ cohortOf procs, 0 ≤ p.t_arribo := by
  intro p hp
  unfold cohortOf at hp
  rcases List.mem_map.mp hp with ⟨q, hq, rfl⟩
  have hq3 : q ∈ procs := (mem_ordenar leArr procs q).mp ((List.take_sublist _ _).subset hq)
  have := harr q hq3
  simpa [resetProc] using this

/-- After construction the NUEVO queue is the cohort minus its `t_arribo = 0`
prefix (which `_guardar_estado_inicial` moved to L/S). -/
theorem nuevos_initState (procs : List Proceso) :
    (initState procs).nuevos = (cohortOf procs).dropWhile (fun p => p.t_arribo == 0) := by
  unfold initState guardarEstadoInicial
  rw [(ejecutarPlanificador_frame _).1, (intentarAdmision_frame _ _).1]

/-- Unfolding one driver step: `reloj + 1`, events cleared, then the four
phases of `tick`. -/
theorem run_succ (procs : List Proceso) (m : Nat) :
    run procs (m + 1) =
      ejecutarPlanificador
        (intentarAdmision
          (fuelAdm (llegadas (cpuPhase { run procs m with
            reloj := (run procs m).reloj + 1, eventos := [] })))
          (llegadas (cpuPhase { run procs m with
            reloj := (run procs m).reloj + 1, eventos := [] }))) := rfl

/-- Arithmetic of the arrival phase: the system count grows by exactly the
number of admitted processes, `min |due| (5 - GDM)`. -/
theorem countSys_llegadas (s : Sim)
    (hsort : List.Pairwise (fun x y => leArr x y = true) s.nuevos)
    (hJ : (∃ p ∈ s.nuevos, p.t_arribo < s.reloj) → 4 ≤ countSys s) :
    countSys (llegadas s) = countSys s +
      min (s.nuevos.takeWhile (fun q => decide (q.t_arribo ≤ s.reloj))).length
        (5 - countSys s) := by
  obtain ⟨hn, hl⟩ := llegadas_spec s hsort hJ
  have haleL : min (s.nuevos.takeWhile
        (fun q => decide (q.t_arribo ≤ s.reloj))).length (5 - countSys s)
      ≤ s.nuevos.length :=
    le_trans (min_le_left _ _) (List.takeWhile_sublist _).length_le
  simp only [countSys, (llegadas_frame s).1, (llegadas_frame s).2.1, hl,
    List.length_append, List.length_map, List.length_take] at haleL ⊢
  omega

/-- If an already-due process is still in NUEVO after the arrival phase, the
phase left the system full (5 slots taken). -/
theorem llegadas_J (s : Sim)
    (hsort : List.Pairwise (fun x y => leArr x y = true) s.nuevos)
    (hJ : (∃ p ∈ s.nuevos, p.t_arribo < s.reloj) → 4 ≤ countSys s) :
    ∀ p ∈ (llegadas s).nuevos, p.t_arribo ≤ s.reloj → 5 ≤ countSys (llegadas s) := by
  intro p hp hple
  obtain ⟨hn, hl⟩ := llegadas_spec s hsort hJ
  rw [countSys_llegadas s hsort hJ]
  rw [hn] at hp
  by_cases hfull : 5 ≤ countSys s +
      min (s.nuevos.takeWhile (fun q => decide (q.t_arribo ≤ s.reloj))).length
        (5 - countSys s)
  · exact hfull
  · exfalso
    have haL : min (s.nuevos.takeWhile
          (fun q => decide (q.t_arribo ≤ s.reloj))).length (5 - countSys s)
        = (s.nuevos.takeWhile (fun q => decide (q.t_arribo ≤ s.reloj))).length := by
      omega
    rw [haL] at hp
    have key : ∀ (t d : List Proceso), s.nuevos = t ++ d →
        s.nuevos.drop t.length = d := by
      intro t d h
      rw [h, List.drop_left]
    have hdw := key _ _ (List.takeWhile_append_dropWhile
      (fun q => decide (q.t_arribo ≤ s.reloj)) s.nuevos).symm
    rw [hdw] at hp
    have hlate := atrasados_drop s.reloj s.nuevos hsort p hp
    omega

/-- Reachability invariant for the arrival phase: in every reachable state
the NUEVO queue is still `(t_arribo, id)`-sorted, and an already-due process
can only be waiting in NUEVO because the system GDM is full (5 slots taken).
Nonnegative arrival times are assumed, as in any valid workload. -/
theorem invariante_nuevos (procs : List Proceso)
    (harr : ∀ p ∈ procs, 0 ≤ p.t_arribo) :
    ∀ n : Nat,
      List.Pairwise (fun x y => leArr x y = true) (run procs n).nuevos ∧
      ((∃ p ∈ (run procs n).nuevos, p.t_arribo ≤ (run procs n).reloj) →
        5 ≤ countSys (run procs n)) := by
  intro n
  induction n with
  | zero =>
    constructor
    · rw [show run procs 0 = initState procs from rfl, nuevos_initState]
      exact (pairwise_cohortOf procs).sublist (List.dropWhile_sublist _)
    · rintro ⟨p, hp, hple⟩
      exfalso
      rw [show run procs 0 = initState procs from rfl, nuevos_initState] at hp
      have hpos := nuevos0_pos (cohortOf procs) (pairwise_cohortOf procs)
        (cohortOf_arribo_pos procs harr) p hp
      have hr := reloj_run procs 0
      rw [hr] at hple
      simp at hple
      omega
  | succ m ih =>
    obtain ⟨ihSort, ihJ⟩ := ih
    have hrelojm := reloj_run procs m
    have hs1n : (cpuPhase { run procs m with
        reloj := (run procs m).reloj + 1, eventos := [] }).nuevos
        = (run procs m).nuevos := (cpuPhase_frame _).1
    have hs1r : (cpuPhase { run procs m with
        reloj := (run procs m).reloj + 1, eventos := [] }).reloj
        = (run procs m).reloj + 1 := (cpuPhase_frame _).2.2.2
    have hsort1 : List.Pairwise (fun x y => leArr x y = true)
        (cpuPhase { run procs m with
          reloj := (run procs m).reloj + 1, eventos := [] }).nuevos := by
      rw [hs1n]; exact ihSort
    have hJ1 : (∃ p ∈ (cpuPhase { run procs m with
          reloj := (run procs m).reloj + 1, eventos := [] }).nuevos,
          p.t_arribo < (cpuPhase { run procs m with
            reloj := (run procs m).reloj + 1, eventos := [] }).reloj) →
        4 ≤ countSys (cpuPhase { run procs m with
          reloj := (run procs m).reloj + 1, eventos := [] }) := by
      rintro ⟨p, hp, hlt⟩
      rw [hs1n] at hp
      rw [hs1r] at hlt
      have h5 : 5 ≤ countSys (run procs m) := ihJ ⟨p, hp, by omega⟩
      have hge := countSys_cpuPhase_ge ({ run procs m with
        reloj := (run procs m).reloj + 1, eventos := [] } : Sim)
      have hyc : countSys ({ run procs m with
          reloj := (run procs m).reloj + 1, eventos := [] } : Sim)
          = countSys (run procs m) := rfl
      rw [hyc] at hge
      omega
    have hframes : (run procs (m + 1)).nuevos =
        (llegadas (cpuPhase { run procs m with
          reloj := (run procs m).reloj + 1, eventos := [] })).nuevos := by
      rw [run_succ]
      rw [(ejecutarPlanificador_frame _).1, (intentarAdmision_frame _ _).1]
    have hcS : countSys (run procs (m + 1)) =
        countSys (llegadas (cpuPhase { run procs m with
          reloj := (run procs m).reloj + 1, eventos := [] })) := by
      rw [run_succ, countSys_ejecutarPlanificador, countSys_intentarAdmision]
    obtain ⟨hn, hl⟩ := llegadas_spec _ hsort1 hJ1
    constructor
    · rw [hframes, hn]
      exact hsort1.sublist (List.drop_sublist _ _)
    · rintro ⟨p, hp, hple⟩
      rw [hframes] at hp
      rw [hcS]
      refine llegadas_J _ hsort1 hJ1 p hp ?_
      rw [hs1r, hrelojm]
      rw [reloj_run] at hple
      omega

/-- **C3.** In every tick, at the arrival phase (state `s1`, after the CPU
phase of tick `m + 1`): the NUEVO queue is `(t_arribo, id)`-sorted, so
admission is attempted in ascending `(arrival, id)` order and every due
process (`t_arribo ≤ reloj`) sits in the leading `due` segment; with
`a = min |due| (5 - GDM)`, exactly the first `a` due processes move to L/S
(an earlier-due process is never passed over for a later-due one); the
count after the phase is `GDM + a`, never exceeding the limit 5 when the
limit held before; if some due process was not admitted (`a < |due|`) the
phase left the system full; and the non-admitted due processes are still in
NUEVO at the end of the tick, to be retried next tick. -/
theorem admision_al_sistema (procs : List Proceso)
    (harr : ∀ p ∈ procs, 0 ≤ p.t_arribo) (m : Nat) (s1 : Sim) (a : Nat)
    (hs1 : s1 = cpuPhase { run procs m with
      reloj := (run procs m).reloj + 1, eventos := [] })
    (ha : a = min (s1.nuevos.takeWhile
      (fun q => decide (q.t_arribo ≤ s1.reloj))).length (5 - countSys s1)) :
    List.Pairwise (fun x y => leArr x y = true) s1.nuevos ∧
    (∀ p ∈ s1.nuevos, p.t_arribo ≤ s1.reloj →
      p ∈ s1.nuevos.takeWhile (fun q => decide (q.t_arribo ≤ s1.reloj))) ∧
    (llegadas s1).ls = s1.ls ++
      ((s1.nuevos.take a).map (fun p => { p with estado := EstadoProc.LS })) ∧
    (llegadas s1).nuevos = s1.nuevos.drop a ∧
    countSys (llegadas s1) = countSys s1 + a ∧
    (countSys s1 ≤ 5 → countSys (llegadas s1) ≤ 5) ∧
    (a < (s1.nuevos.takeWhile
      (fun q => decide (q.t_arribo ≤ s1.reloj))).length →
        5 ≤ countSys (llegadas s1)) ∧
    (run procs (m + 1)).nuevos = s1.nuevos.drop a := by
  subst hs1
  subst ha
  obtain ⟨ihSort, ihJ⟩ := invariante_nuevos procs harr m
  have hs1n : (cpuPhase { run procs m with
      reloj := (run procs m).reloj + 1, eventos := [] }).nuevos
      = (run procs m).nuevos := (cpuPhase_frame _).1
  have hs1r : (cpuPhase { run procs m with
      reloj := (run procs m).reloj + 1, eventos := [] }).reloj
      = (run procs m).reloj + 1 := (cpuPhase_frame _).2.2.2
  have hsort1 : List.Pairwise (fun x y => leArr x y = true)
      (cpuPhase { run procs m with
        reloj := (run procs m).reloj + 1, eventos := [] }).nuevos := by
    rw [hs1n]; exact ihSort
  have hJ1 : (∃ p ∈ (cpuPhase { run procs m with
        reloj := (run procs m).reloj + 1, eventos := [] }).nuevos,
        p.t_arribo < (cpuPhase { run procs m with
          reloj := (run procs m).reloj + 1, eventos := [] }).reloj) →
      4 ≤ countSys (cpuPhase { run procs m with
        reloj := (run procs m).reloj + 1, eventos := [] }) := by
    rintro ⟨p, hp, hlt⟩
    rw [hs1n] at hp
    rw [hs1r] at hlt
    have h5 : 5 ≤ countSys (run procs m) := ihJ ⟨p, hp, by omega⟩
    have hge := countSys_cpuPhase_ge ({ run procs m with
      reloj := (run procs m).reloj + 1, eventos := [] } : Sim)
    have hyc : countSys ({ run procs m with
        reloj := (run procs m).reloj + 1, eventos := [] } : Sim)
        = countSys (run procs m) := rfl
    rw [hyc] at hge
    omega
  obtain ⟨hn, hl⟩ := llegadas_spec _ hsort1 hJ1
  refine ⟨hsort1, ?_, hl, hn, countSys_llegadas _ hsort1 hJ1, ?_, ?_, ?_⟩
  · intro p hp hple
    have hsplit := List.takeWhile_append_dropWhile
      (fun q => decide (q.t_arribo ≤ (cpuPhase { run procs m with
        reloj := (run procs m).reloj + 1, eventos := [] }).reloj))
      (cpuPhase { run procs m with
        reloj := (run procs m).reloj + 1, eventos := [] }).nuevos
    rw [← hsplit] at hp
    rcases List.mem_append.mp hp with h1 | h1
    · exact h1
    · exfalso
      have hlate := atrasados_drop _ _ hsort1 p h1
      omega
  · intro hle5
    rw [countSys_llegadas _ hsort1 hJ1]
    omega
  · intro hlt
    rw [countSys_llegadas _ hsort1 hJ1]
    omega
  · have hframes : (run procs (m + 1)).nuevos =
        (llegadas (cpuPhase { run procs m with
          reloj := (run procs m).reloj + 1, eventos := [] })).nuevos := by
      rw [run_succ]
      rw [(ejecutarPlanificador_frame _).1, (intentarAdmision_frame _ _).1]
    rw [hframes, hn]

theorem admision_al_sistema_witness :
    (run cohorteConGigante 1).nuevos = [mkProceso 6 40 1 3] := by
  have h := admision_al_sistema cohorteConGigante (by decide) 0
    (cpuPhase { run cohorteConGigante 0 with
      reloj := (run cohorteConGigante 0).reloj + 1, eventos := [] })
    4 rfl (by decide)
  exact (h.2.2.2.2.2.2.2).trans (by decide)

end VG3
